import Mathlib

/-!
Verification development for the OS version tracking script (main.py).

The script scrapes OS version information for macOS, iPadOS, Windows and
ChromeOS, keeps a date-keyed JSON history bounded to 7 days, and reports
day-over-day changes.  This file embeds the history store
(load_history / save_history), the change detector (detect_changes) and
the per-platform scrapers as Lean functions, and proves or refutes the
specification claims about them.

Modelling conventions:
- Python dicts are association lists (insertion ordered, unique keys);
  d[k] = v replaces in place or appends, d.get(k) looks up the first hit.
- Python exceptions are the Except monad (PyErr).
- The persisted JSON file is a Store: absent, readable contents, or
  corrupt contents (json.load raises on corrupt contents).
- datetime.now() is passed in explicitly as a PyDateTime value.
- Strings are compared the way Python compares str (lexicographically by
  code point): lexLt below.
-/

/-- Exceptions the embedded Python fragment can raise. -/
inductive PyErr where
  | fetchError
  | jsonError
  | keyError
  | dateParseError
deriving DecidableEq, Repr

/-- Python d.get(k): value of the first entry with key k, if any. -/
def pyGet {α : Type} (l : List (String × α)) (k : String) : Option α :=
  (l.find? (fun kv => kv.1 == k)).map (fun kv => kv.2)

/-- Python d[k]: raises KeyError when the key is absent. -/
def pyIndex {α : Type} (l : List (String × α)) (k : String) : Except PyErr α :=
  match pyGet l k with
  | some v => .ok v
  | none => .error .keyError

/-- Python d[k] = v: replace the value in place when the key exists,
otherwise append the new entry at the end (dict insertion order). -/
def dictInsert {α : Type} (k : String) (v : α) : List (String × α) → List (String × α)
  | [] => [(k, v)]
  | kv :: rest => if kv.1 == k then (k, v) :: rest else kv :: dictInsert k v rest

/-- Python d.keys() in insertion order. -/
def dictKeys {α : Type} (l : List (String × α)) : List String := l.map (fun kv => kv.1)

/-- Python d.setdefault(k, v). -/
def dictSetdefault {α : Type} (l : List (String × α)) (k : String) (v : α) :
    List (String × α) :=
  if (pyGet l k).isSome then l else l ++ [(k, v)]

/-- Python base.update(other): assign every entry of other into base. -/
def dictUpdate {α : Type} (base other : List (String × α)) : List (String × α) :=
  other.foldl (fun acc kv => dictInsert kv.1 kv.2 acc) base

/-- The loop `for k in ks: del d[k]` (every k in ks is a key of d when the
script runs it, so it never raises). -/
def pyDelKeys {α : Type} (l : List (String × α)) (ks : List String) : List (String × α) :=
  ks.foldl (fun acc k => acc.filter (fun kv => kv.1 != k)) l

/-- A canonical per-platform record: field name to value. -/
abbrev VRec := List (String × String)

/-- A snapshot: platform name to record. -/
abbrev Snapshot := List (String × VRec)

/-- The in-memory history: date key to snapshot. -/
abbrev HistDict := List (String × Snapshot)

/-- Python string comparison (lexicographic by code point), as used by
sorted() on the history keys. -/
def lexLt : List Char → List Char → Bool
  | [], [] => false
  | [], _ :: _ => true
  | _ :: _, [] => false
  | a :: as, b :: bs => a.toNat < b.toNat || (a.toNat == b.toNat && lexLt as bs)

/-- Python s1 < s2 on strings. -/
def strLt (a b : String) : Bool := lexLt a.data b.data

/-- The weak order underlying Python sorted() on strings. -/
def strLe (a b : String) : Prop := strLt b a = false

instance : DecidableRel strLe := fun a b =>
  inferInstanceAs (Decidable (strLt b a = false))

/-- Python sorted() on a list of strings (ascending, stable). -/
def pySorted (l : List String) : List String := List.insertionSort strLe l

/-- A calendar date (year, month, day). -/
structure YMD where
  y : Nat
  m : Nat
  d : Nat
deriving DecidableEq, Repr

/-- A datetime.now() value: calendar date plus time of day. -/
structure PyDateTime where
  date : YMD
  secondsOfDay : Nat
deriving DecidableEq, Repr

def isLeap (y : Nat) : Bool := y % 4 = 0 && (y % 100 != 0 || y % 400 = 0)

def daysInMonth (y m : Nat) : Nat :=
  if m = 2 then (if isLeap y then 29 else 28)
  else if m = 4 || m = 6 || m = 9 || m = 11 then 30
  else 31

/-- datetime - timedelta(days=1), projected to the date (the time of day
is unchanged by subtracting a whole day). -/
def dateSub1 (x : YMD) : YMD :=
  if 1 < x.d then ⟨x.y, x.m, x.d - 1⟩
  else if 1 < x.m then ⟨x.y, x.m - 1, daysInMonth x.y (x.m - 1)⟩
  else ⟨x.y - 1, 12, 31⟩

def digitChar : Nat → Char
  | 0 => '0' | 1 => '1' | 2 => '2' | 3 => '3' | 4 => '4'
  | 5 => '5' | 6 => '6' | 7 => '7' | 8 => '8' | 9 => '9'
  | _ => '?'

/-- strftime("%Y-%m-%d") for dates with a four digit year (zero padded,
as every date the script handles is). -/
def renderYMD (x : YMD) : String :=
  ⟨[digitChar (x.y / 1000 % 10), digitChar (x.y / 100 % 10),
    digitChar (x.y / 10 % 10), digitChar (x.y % 10), '-',
    digitChar (x.m / 10 % 10), digitChar (x.m % 10), '-',
    digitChar (x.d / 10 % 10), digitChar (x.d % 10)]⟩

/-- (datetime.now() - timedelta(days=1)).strftime("%Y-%m-%d"). -/
def yesterdayKey (t : PyDateTime) : String := renderYMD (dateSub1 t.date)

def digitVal (c : Char) : Option Nat :=
  if 48 ≤ c.toNat ∧ c.toNat ≤ 57 then some (c.toNat - 48) else none

/-- datetime.strptime(s, "%Y-%m-%d") restricted to the zero padded form
the script itself writes and reads; raises (none) on anything else,
including calendar-invalid dates. -/
def parseYMD (s : String) : Option YMD :=
  match s.data with
  | [y1, y2, y3, y4, s1, m1, m2, s2, d1, d2] =>
    match digitVal y1, digitVal y2, digitVal y3, digitVal y4,
          digitVal m1, digitVal m2, digitVal d1, digitVal d2 with
    | some a, some b, some c, some d, some e, some f, some g, some h =>
      if s1 = '-' ∧ s2 = '-' then
        if 1 ≤ 10 * e + f ∧ 10 * e + f ≤ 12 ∧ 1 ≤ 10 * g + h ∧
            10 * g + h ≤ daysInMonth (1000 * a + 100 * b + 10 * c + d) (10 * e + f) then
          some ⟨1000 * a + 100 * b + 10 * c + d, 10 * e + f, 10 * g + h⟩
        else none
      else none
    | _, _, _, _, _, _, _, _ => none
  | _ => none

/-- Calendar order on two date-key strings (both must parse). -/
def dateKeyLt (k1 k2 : String) : Bool :=
  match parseYMD k1, parseYMD k2 with
  | some a, some b =>
    a.y < b.y || (a.y == b.y && (a.m < b.m || (a.m == b.m && a.d < b.d)))
  | _, _ => false

/-- Contents of the history file: either JSON that json.load accepts
(holding a date-keyed history) or corrupt contents on which it raises. -/
inductive StoreContents where
  | valid (h : HistDict)
  | corrupt
deriving DecidableEq

/-- The backing store: the file may be absent (first run) or present. -/
abbrev Store := Option StoreContents

/-- load_history(): empty dict when the file does not exist, otherwise
json.load, which raises on corrupt contents. -/
def load_history : Store → Except PyErr HistDict
  | none => .ok []
  | some (.valid h) => .ok h
  | some .corrupt => .error .jsonError

/-- The history value save_history computes before writing it out:
re-load the store, assign history[today] = data, and when more than 7
entries remain delete sorted(history.keys())[:-7] (the oldest by string
order). -/
def newHistoryAfterSave (st : Store) (today : String) (data : Snapshot) :
    Except PyErr HistDict := do
  let history ← load_history st
  let history := dictInsert today data history
  if 7 < history.length then
    pure (pyDelKeys history
      ((pySorted (dictKeys history)).take ((dictKeys history).length - 7)))
  else
    pure history

/-- save_history(data): the resulting persisted store. -/
def save_history (st : Store) (today : String) (data : Snapshot) :
    Except PyErr Store :=
  (newHistoryAfterSave st today data).map (fun h => some (.valid h))

/-- The store states observable if the process crashes during the final
write of save_history: before open(..., "w") the prior store is intact;
open truncates the file, so until json.dump finishes the contents are
partial or empty (corrupt for json.load); after the dump the new history
is fully written. -/
def saveCrashStates (st : Store) (today : String) (data : Snapshot) :
    Except PyErr (List Store) :=
  (newHistoryAfterSave st today data).map
    (fun h => [st, some .corrupt, some (.valid h)])

/-- A store wellformed the way every real history file is: its keys are
unique (Python dicts cannot hold duplicate keys). -/
def storeWF : Store → Prop
  | some (.valid h) => (dictKeys h).Nodup
  | _ => True

instance : DecidablePred storeWF := fun st => by
  unfold storeWF
  match st with
  | some (.valid h) => exact inferInstanceAs (Decidable (dictKeys h).Nodup)
  | some .corrupt => exact inferInstanceAs (Decidable True)
  | none => exact inferInstanceAs (Decidable True)

/-- The history the store holds (empty for absent or corrupt stores). -/
def loadedHist : Store → HistDict
  | some (.valid h) => h
  | _ => []

/-- The f-string of detect_changes, looking up the three fields of the
current record (vals["stable"] etc. raise KeyError when absent). -/
def mkLine (os : String) (vals : VRec) : Except PyErr String := do
  let s ← pyIndex vals "stable"
  let b ← pyIndex vals "beta"
  let r ← pyIndex vals "beta_release_date"
  pure ("🆕 " ++ os ++ " update: Stable: " ++ s ++ ", Beta: " ++ b ++
    ", Beta_release_date: " ++ r)

/-- The same line as a total function (used to state what mkLine returns
when the three fields are present). -/
def mkLineStr (os : String) (vals : VRec) : String :=
  "🆕 " ++ os ++ " update: Stable: " ++ (pyGet vals "stable").getD "" ++
    ", Beta: " ++ (pyGet vals "beta").getD "" ++
    ", Beta_release_date: " ++ (pyGet vals "beta_release_date").getD ""

/-- The inner loop `for key in vals: if vals[key] != previous[os].get(key)`:
some current field disagrees with the previous record (a missing previous
field compares as None and so always disagrees). -/
def recAnyDiff (vals pr : VRec) : Bool :=
  vals.any (fun kv => !(pyGet pr kv.1 == some kv.2))

/-- The body of the platform loop of detect_changes. -/
def detectGo (previous : Snapshot) : List (String × VRec) → Except PyErr (List String)
  | [] => .ok []
  | (os, vals) :: rest =>
    match pyGet previous os with
    | none => do
      let line ← mkLine os vals
      let more ← detectGo previous rest
      pure (line :: more)
    | some pr =>
      if recAnyDiff vals pr then do
        let line ← mkLine os vals
        let more ← detectGo previous rest
        pure (line :: more)
      else detectGo previous rest

/-- detect_changes(history, current_data): the baseline is
history.get(yesterday, {}) for yesterday computed from the clock. -/
def detect_changes (now : PyDateTime) (history : HistDict) (current : Snapshot) :
    Except PyErr (List String) :=
  detectGo ((pyGet history (yesterdayKey now)).getD []) current

/-- A platform of the current snapshot that detect_changes reports:
absent from the baseline, or some field disagrees. -/
def changedB (previous : Snapshot) (pv : String × VRec) : Bool :=
  match pyGet previous pv.1 with
  | none => true
  | some pr => recAnyDiff pv.2 pr

/-- The record has the three canonical fields. -/
def hasThreeB (vals : VRec) : Bool :=
  (pyGet vals "stable").isSome && (pyGet vals "beta").isSome &&
    (pyGet vals "beta_release_date").isSome

instance {ε α : Type} [DecidableEq ε] [DecidableEq α] : DecidableEq (Except ε α)
  | .error a, .error b =>
    if h : a = b then .isTrue (congrArg Except.error h)
    else .isFalse (fun hh => h (Except.error.inj hh))
  | .error _, .ok _ => .isFalse (fun hh => Except.noConfusion hh)
  | .ok _, .error _ => .isFalse (fun hh => Except.noConfusion hh)
  | .ok a, .ok b =>
    if h : a = b then .isTrue (congrArg Except.ok h)
    else .isFalse (fun hh => h (Except.ok.inj hh))

/-- The fixed platform list, in the order main() assembles the snapshot. -/
def fixedPlatforms : List String := ["macOS", "iPadOS", "Windows", "ChromeOS"]

/-- The fully-sentinel record. -/
def sentinelRec : VRec := [("stable", "-"), ("beta", "-"), ("beta_release_date", "-")]

/-- Spec-side definition: the all-sentinel baseline snapshot the spec says
detect_changes compares against when the previous day is absent. -/
def specSentinelBaseline : Snapshot := fixedPlatforms.map (fun p => (p, sentinelRec))

/-- The canonical field list, in the fixed order of the spec. -/
def threeFields : List String := ["stable", "beta", "beta_release_date"]

/-- Spec-side definition: the number of (platform, field) pairs whose
current value differs from the previous value, i.e. how many Change
Records the claim says the detector emits. -/
def specChangedFieldPairs (previous current : Snapshot) : Nat :=
  (current.map (fun pv =>
    (threeFields.filter (fun f =>
      !(pyGet pv.2 f == pyGet ((pyGet previous pv.1).getD []) f))).length)).sum

/-- Spec-side definition: atomicity of the persisted write as the spec
states it — every crash-observable state during save is either the prior
store or the fully written final store. -/
def crashSafe (prior finalStore : Store) (states : List Store) : Prop :=
  ∀ s ∈ states, s = prior ∨ s = finalStore

/-- Effectful map in the Except monad: the shape of the line-emitting
loop of detect_changes (stop at the first raised exception). -/
def exceptMapM {α β : Type} (f : α → Except PyErr β) : List α → Except PyErr (List β)
  | [] => .ok []
  | x :: xs => do
    let y ← f x
    let ys ← exceptMapM f xs
    pure (y :: ys)

theorem mkLine_ok (os : String) (vals : VRec) (h : hasThreeB vals = true) :
    mkLine os vals = .ok (mkLineStr os vals) := by
  unfold hasThreeB at h
  simp only [Bool.and_eq_true, Option.isSome_iff_exists] at h
  obtain ⟨⟨⟨s, hs⟩, b, hb⟩, r, hr⟩ := h
  simp [mkLine, pyIndex, mkLineStr, hs, hb, hr, Bind.bind, Except.bind, Pure.pure,
    Except.pure]

theorem detect_changes_eq (now : PyDateTime) (H : HistDict) (S : Snapshot) :
    detect_changes now H S =
      exceptMapM (fun pv => mkLine pv.1 pv.2)
        (S.filter (changedB ((pyGet H (yesterdayKey now)).getD []))) := by
  unfold detect_changes
  generalize (pyGet H (yesterdayKey now)).getD [] = prev
  induction S with
  | nil => rfl
  | cons pv rest ih =>
    obtain ⟨os, vals⟩ := pv
    simp only [detectGo, List.filter_cons]
    cases h : pyGet prev os with
    | none =>
      have hc : changedB prev (os, vals) = true := by simp [changedB, h]
      simp [hc, exceptMapM, ih]
    | some pr =>
      cases hd : recAnyDiff vals pr with
      | true =>
        have hc : changedB prev (os, vals) = true := by simp [changedB, h, hd]
        simp [h, hd, hc, exceptMapM, ih]
      | false =>
        have hc : changedB prev (os, vals) = false := by simp [changedB, h, hd]
        simp [h, hd, hc, ih]

theorem exceptMapM_mkLine_ok (xs : List (String × VRec))
    (h : ∀ pv ∈ xs, hasThreeB pv.2 = true) :
    exceptMapM (fun pv => mkLine pv.1 pv.2) xs =
      .ok (xs.map (fun pv => mkLineStr pv.1 pv.2)) := by
  induction xs with
  | nil => rfl
  | cons pv rest ih =>
    simp only [exceptMapM, List.map_cons]
    rw [mkLine_ok pv.1 pv.2 (h pv (by simp)), ih (fun q hq => h q (by simp [hq]))]
    rfl

theorem exceptMapM_ok_nil_iff {α β : Type} (f : α → Except PyErr β) (xs : List α)
    (l : List β) (h : exceptMapM f xs = .ok l) : l = [] ↔ xs = [] := by
  cases xs with
  | nil =>
    simp only [exceptMapM] at h
    cases h
    simp
  | cons x rest =>
    simp only [exceptMapM] at h
    cases hfx : f x with
    | error e => rw [hfx] at h; simp [Bind.bind, Except.bind] at h
    | ok y =>
      rw [hfx] at h
      cases hrest : exceptMapM f rest with
      | error e => rw [hrest] at h; simp [Bind.bind, Except.bind] at h
      | ok ys =>
        rw [hrest] at h
        simp only [Bind.bind, Except.bind, pure, Except.pure] at h
        cases h
        simp

/-- C5 (amended): load_history returns the persisted History when the
store holds readable contents and an empty History when the store is
absent, but raises (json.load error) when the contents are corrupt. -/
theorem c5_load_behavior :
    load_history none = .ok [] ∧
    (∀ h : HistDict, load_history (some (.valid h)) = .ok h) ∧
    load_history (some .corrupt) = .error .jsonError :=
  ⟨rfl, fun _ => rfl, rfl⟩

/-- C5 (counterexample): on a corrupt store, load_history raises instead
of returning an empty History, so load is fatal there, contradicting the
claim that load never raises under any state of the backing store. -/
theorem c5_corrupt_counterexample :
    load_history (some .corrupt) = .error .jsonError ∧
    ¬(load_history (some .corrupt) = .ok []) :=
  ⟨rfl, fun h => Except.noConfusion h⟩

/-- C6 (amended): save_history rewrites the store file in place: when the
save succeeds the final persisted store is the complete new history, but
open(..., "w") truncates before json.dump finishes, so the intermediate
crash-observable state is a corrupt store rather than the prior one. -/
theorem c6_save_write_behavior (st : Store) (today : String) (data : Snapshot)
    (h : HistDict) (hok : newHistoryAfterSave st today data = .ok h) :
    saveCrashStates st today data = .ok [st, some .corrupt, some (.valid h)] ∧
    save_history st today data = .ok (some (.valid h)) := by
  unfold saveCrashStates save_history
  rw [hok]
  exact ⟨rfl, rfl⟩

theorem c6_save_write_behavior_witness :
    saveCrashStates none "2024-05-01" [] =
      .ok [none, some .corrupt, some (.valid [("2024-05-01", [])])] ∧
    save_history none "2024-05-01" [] = .ok (some (.valid [("2024-05-01", [])])) :=
  c6_save_write_behavior none "2024-05-01" [] [("2024-05-01", [])] rfl

/-- C6 (counterexample): a concrete save over a prior valid store passes
through a crash-observable state that is neither the prior store nor the
fully written new store (it is corrupt), so the save is not atomic. -/
theorem c6_atomicity_counterexample :
    saveCrashStates (some (.valid [("2024-01-01", [])])) "2024-01-02" [] =
      .ok [some (.valid [("2024-01-01", [])]), some .corrupt,
        some (.valid [("2024-01-01", []), ("2024-01-02", [])])] ∧
    ¬ crashSafe (some (.valid [("2024-01-01", [])]))
        (some (.valid [("2024-01-01", []), ("2024-01-02", [])]))
        [some (.valid [("2024-01-01", [])]), some .corrupt,
          some (.valid [("2024-01-01", []), ("2024-01-02", [])])] := by
  constructor
  · rfl
  · intro hcs
    have hmid := hcs (some .corrupt) (by simp)
    rcases hmid with h1 | h1 <;> simp at h1

/-- C9: detect_changes is a pure deterministic function of the history,
the current snapshot, and the calendar date of the clock reading: two
calls with the same (H, S, d) give identical output no matter at what
time of day they execute. -/
theorem c9_detect_deterministic (t1 t2 : PyDateTime) (H : HistDict) (S : Snapshot)
    (hd : t1.date = t2.date) :
    detect_changes t1 H S = detect_changes t2 H S := by
  unfold detect_changes yesterdayKey
  rw [hd]

theorem c9_detect_deterministic_witness :
    (⟨⟨2024, 3, 2⟩, 0⟩ : PyDateTime).date = (⟨⟨2024, 3, 2⟩, 86399⟩ : PyDateTime).date ∧
    detect_changes ⟨⟨2024, 3, 2⟩, 0⟩ [("2024-03-01", [("macOS", [("stable", "14.3")])])]
        [("macOS", [("stable", "14.4")])] =
      detect_changes ⟨⟨2024, 3, 2⟩, 86399⟩ [("2024-03-01", [("macOS", [("stable", "14.3")])])]
        [("macOS", [("stable", "14.4")])] :=
  ⟨rfl, c9_detect_deterministic _ _ _ _ rfl⟩

/-- C2 (amended): the diff is empty iff every platform of the current
snapshot appears in the previous-day entry with every current field equal
there; when the history has no entry for yesterday the baseline is the
empty dict (not the all-sentinel snapshot), so the diff is empty iff the
current snapshot itself has no platforms. -/
theorem c2_empty_diff_iff (now : PyDateTime) (H : HistDict) (S : Snapshot)
    (l : List String) (hdet : detect_changes now H S = .ok l) :
    l = [] ↔ ∀ pv ∈ S, ∃ pr,
      pyGet ((pyGet H (yesterdayKey now)).getD []) pv.1 = some pr ∧
      ∀ kv ∈ pv.2, pyGet pr kv.1 = some kv.2 := by
  rw [detect_changes_eq] at hdet
  rw [exceptMapM_ok_nil_iff _ _ _ hdet, List.filter_eq_nil_iff]
  constructor
  · intro hall pv hpv
    have hc := hall pv hpv
    rw [Bool.not_eq_true] at hc
    unfold changedB at hc
    cases hp : pyGet ((pyGet H (yesterdayKey now)).getD []) pv.1 with
    | none => rw [hp] at hc; cases hc
    | some pr =>
      rw [hp] at hc
      refine ⟨pr, rfl, ?_⟩
      intro kv hkv
      unfold recAnyDiff at hc
      have := List.any_eq_false.mp hc kv hkv
      simpa using this
  · intro hall pv hpv
    obtain ⟨pr, hpr, hfields⟩ := hall pv hpv
    rw [Bool.not_eq_true]
    unfold changedB
    rw [hpr]
    unfold recAnyDiff
    rw [List.any_eq_false]
    intro kv hkv
    simp [hfields kv hkv]

theorem c2_empty_diff_iff_witness :
    (([] : List String) = [] ↔
      ∀ pv ∈ ([("macOS", [("stable", "14.3")])] : Snapshot), ∃ pr,
        pyGet ((pyGet ([("2024-03-01", [("macOS", [("stable", "14.3")])])] : HistDict)
            (yesterdayKey ⟨⟨2024, 3, 2⟩, 0⟩)).getD []) pv.1 = some pr ∧
        ∀ kv ∈ pv.2, pyGet pr kv.1 = some kv.2) :=
  c2_empty_diff_iff ⟨⟨2024, 3, 2⟩, 0⟩ _ _ _ rfl

/-- C2 (counterexample): with an empty history (no entry for yesterday)
and the current snapshot equal to the all-sentinel baseline, the claim
says the diff is empty, but detect_changes reports every platform as
changed (previous is the empty dict, not the sentinel baseline). -/
theorem c2_sentinel_baseline_counterexample :
    pyGet ([] : HistDict) (yesterdayKey ⟨⟨2024, 3, 2⟩, 0⟩) = none ∧
    ¬((detect_changes ⟨⟨2024, 3, 2⟩, 0⟩ [] specSentinelBaseline = .ok []) ↔
        specSentinelBaseline = specSentinelBaseline) := by
  refine ⟨rfl, fun hiff => absurd (hiff.mpr rfl) (by decide)⟩

def c3H : HistDict :=
  [("2024-03-01", [("macOS",
    [("stable", "14.3"), ("beta", "14.4 beta 1"), ("beta_release_date", "01 Feb 2024")])])]

def c3S : Snapshot :=
  [("macOS",
    [("stable", "14.3.1"), ("beta", "14.4 beta 2"), ("beta_release_date", "01 Feb 2024")])]

/-- C3 (amended): detect_changes emits exactly one aggregated line per
platform whose record is reported changed (absent from the baseline or
some field differing), in the order platforms appear in the current
snapshot; the line carries all three current fields. -/
theorem c3_one_line_per_changed_platform (now : PyDateTime) (H : HistDict) (S : Snapshot)
    (h3 : ∀ pv ∈ S, hasThreeB pv.2 = true) :
    detect_changes now H S = .ok
      ((S.filter (changedB ((pyGet H (yesterdayKey now)).getD []))).map
        (fun pv => mkLineStr pv.1 pv.2)) := by
  rw [detect_changes_eq]
  exact exceptMapM_mkLine_ok _ (fun pv hpv => h3 pv (List.mem_filter.mp hpv).1)

theorem c3_one_line_per_changed_platform_witness :
    detect_changes ⟨⟨2024, 3, 2⟩, 0⟩ c3H c3S = .ok
      ((c3S.filter (changedB ((pyGet c3H (yesterdayKey ⟨⟨2024, 3, 2⟩, 0⟩)).getD []))).map
        (fun pv => mkLineStr pv.1 pv.2)) :=
  c3_one_line_per_changed_platform ⟨⟨2024, 3, 2⟩, 0⟩ c3H c3S (by decide)

/-- C3 (counterexample): a platform with two changed fields yields a
single aggregated line, not two records: here stable and beta both
changed (two changed (platform, field) pairs) yet the output has exactly
one entry. -/
theorem c3_per_field_counterexample :
    detect_changes ⟨⟨2024, 3, 2⟩, 0⟩ c3H c3S = .ok
      ["🆕 macOS update: Stable: 14.3.1, Beta: 14.4 beta 2, Beta_release_date: 01 Feb 2024"] ∧
    specChangedFieldPairs ((pyGet c3H (yesterdayKey ⟨⟨2024, 3, 2⟩, 0⟩)).getD []) c3S = 2 ∧
    (["🆕 macOS update: Stable: 14.3.1, Beta: 14.4 beta 2, Beta_release_date: 01 Feb 2024"].length
      ≠ specChangedFieldPairs ((pyGet c3H (yesterdayKey ⟨⟨2024, 3, 2⟩, 0⟩)).getD []) c3S) := by
  refine ⟨by decide, by decide, by decide⟩

/-- C10: when every record of the current snapshot carries the three
canonical fields, detect_changes never raises; a platform absent from the
previous snapshot is reported as changed, and a field present in the
current record but absent from the previous record compares as unequal
(the .get default is None) and is reported as changed rather than raising
a KeyError. -/
theorem c10_detect_total (now : PyDateTime) (H : HistDict) (S : Snapshot)
    (h3 : ∀ pv ∈ S, hasThreeB pv.2 = true) :
    (detect_changes now H S).isOk = true ∧
    ∀ l, detect_changes now H S = .ok l →
      (∀ pv ∈ S, pyGet ((pyGet H (yesterdayKey now)).getD []) pv.1 = none →
        mkLineStr pv.1 pv.2 ∈ l) ∧
      (∀ pv ∈ S, ∀ pr, pyGet ((pyGet H (yesterdayKey now)).getD []) pv.1 = some pr →
        (∃ kv ∈ pv.2, pyGet pr kv.1 = none) → mkLineStr pv.1 pv.2 ∈ l) := by
  have hmain : detect_changes now H S = .ok
      ((S.filter (changedB ((pyGet H (yesterdayKey now)).getD []))).map
        (fun pv => mkLineStr pv.1 pv.2)) := by
    rw [detect_changes_eq]
    exact exceptMapM_mkLine_ok _ (fun pv hpv => h3 pv (List.mem_filter.mp hpv).1)
  refine ⟨by rw [hmain]; rfl, ?_⟩
  intro l hl
  rw [hmain] at hl
  have hleq := Except.ok.inj hl
  constructor
  · intro pv hpv hnone
    have hc : changedB ((pyGet H (yesterdayKey now)).getD []) pv = true := by
      unfold changedB
      rw [hnone]
    exact hleq ▸ List.mem_map_of_mem _ (List.mem_filter.mpr ⟨hpv, hc⟩)
  · rintro pv hpv pr hpr ⟨kv, hkv, hnone⟩
    have hc : changedB ((pyGet H (yesterdayKey now)).getD []) pv = true := by
      unfold changedB
      rw [hpr]
      unfold recAnyDiff
      exact List.any_eq_true.mpr ⟨kv, hkv, by simp [hnone]⟩
    exact hleq ▸ List.mem_map_of_mem _ (List.mem_filter.mpr ⟨hpv, hc⟩)

theorem c10_detect_total_witness :
    (detect_changes ⟨⟨2024, 3, 2⟩, 0⟩
        [("2024-03-01", [("macOS", [("stable", "14.3")])])]
        [("macOS", [("stable", "14.3"), ("beta", "-"), ("beta_release_date", "-")]),
          ("Windows", [("stable", "w1"), ("beta", "-"), ("beta_release_date", "-")])]).isOk
      = true ∧
    ∀ l, detect_changes ⟨⟨2024, 3, 2⟩, 0⟩
        [("2024-03-01", [("macOS", [("stable", "14.3")])])]
        [("macOS", [("stable", "14.3"), ("beta", "-"), ("beta_release_date", "-")]),
          ("Windows", [("stable", "w1"), ("beta", "-"), ("beta_release_date", "-")])] = .ok l →
      (∀ pv ∈ ([("macOS", [("stable", "14.3"), ("beta", "-"), ("beta_release_date", "-")]),
          ("Windows", [("stable", "w1"), ("beta", "-"), ("beta_release_date", "-")])] : Snapshot),
        pyGet ((pyGet ([("2024-03-01", [("macOS", [("stable", "14.3")])])] : HistDict)
            (yesterdayKey ⟨⟨2024, 3, 2⟩, 0⟩)).getD []) pv.1 = none →
          mkLineStr pv.1 pv.2 ∈ l) ∧
      (∀ pv ∈ ([("macOS", [("stable", "14.3"), ("beta", "-"), ("beta_release_date", "-")]),
          ("Windows", [("stable", "w1"), ("beta", "-"), ("beta_release_date", "-")])] : Snapshot),
        ∀ pr, pyGet ((pyGet ([("2024-03-01", [("macOS", [("stable", "14.3")])])] : HistDict)
            (yesterdayKey ⟨⟨2024, 3, 2⟩, 0⟩)).getD []) pv.1 = some pr →
          (∃ kv ∈ pv.2, pyGet pr kv.1 = none) → mkLineStr pv.1 pv.2 ∈ l) :=
  c10_detect_total ⟨⟨2024, 3, 2⟩, 0⟩ _ _ (by decide)

theorem char_eq_of_toNat_eq {a b : Char} (h : a.toNat = b.toNat) : a = b :=
  Char.eq_of_val_eq (UInt32.eq_of_val_eq (Fin.ext h))

theorem lexLt_irrefl : ∀ l : List Char, lexLt l l = false := by
  intro l
  induction l with
  | nil => rfl
  | cons a as ih => simp [lexLt, ih]

theorem lexLt_asymm : ∀ l1 l2 : List Char, lexLt l1 l2 = true → lexLt l2 l1 = false := by
  intro l1
  induction l1 with
  | nil =>
    intro l2 h
    cases l2 with
    | nil => cases h
    | cons b bs => rfl
  | cons a as ih =>
    intro l2 h
    cases l2 with
    | nil => cases h
    | cons b bs =>
      simp only [lexLt, Bool.or_eq_true, Bool.and_eq_true, beq_iff_eq,
        decide_eq_true_eq] at h
      simp only [lexLt, Bool.or_eq_false_iff, Bool.and_eq_false_iff,
        beq_eq_false_iff_ne, ne_eq, decide_eq_false_iff_not]
      rcases h with h | ⟨heq, h⟩
      · exact ⟨by omega, Or.inl (by omega)⟩
      · exact ⟨by omega, Or.inr (ih bs h)⟩

theorem lexLt_trans : ∀ l1 l2 l3 : List Char,
    lexLt l1 l2 = true → lexLt l2 l3 = true → lexLt l1 l3 = true := by
  intro l1
  induction l1 with
  | nil =>
    intro l2 l3 h12 h23
    cases l2 with
    | nil => cases h12
    | cons b bs =>
      cases l3 with
      | nil => cases h23
      | cons c cs => rfl
  | cons a as ih =>
    intro l2 l3 h12 h23
    cases l2 with
    | nil => cases h12
    | cons b bs =>
      cases l3 with
      | nil => cases h23
      | cons c cs =>
        simp only [lexLt, Bool.or_eq_true, Bool.and_eq_true, beq_iff_eq,
          decide_eq_true_eq] at h12 h23 ⊢
        rcases h12 with h12 | ⟨heq12, h12⟩ <;> rcases h23 with h23 | ⟨heq23, h23⟩
        · exact Or.inl (by omega)
        · exact Or.inl (by omega)
        · exact Or.inl (by omega)
        · exact Or.inr ⟨by omega, ih bs cs h12 h23⟩

theorem lexLt_eq_of_not_lt : ∀ l1 l2 : List Char,
    lexLt l1 l2 = false → lexLt l2 l1 = false → l1 = l2 := by
  intro l1
  induction l1 with
  | nil =>
    intro l2 h12 _
    cases l2 with
    | nil => rfl
    | cons b bs => cases h12
  | cons a as ih =>
    intro l2 h12 h21
    cases l2 with
    | nil => cases h21
    | cons b bs =>
      simp only [lexLt, Bool.or_eq_false_iff, Bool.and_eq_false_iff, beq_eq_false_iff_ne,
        ne_eq, decide_eq_false_iff_not] at h12 h21
      obtain ⟨hab, h12r⟩ := h12
      obtain ⟨hba, h21r⟩ := h21
      have hch : a = b := char_eq_of_toNat_eq (by omega)
      subst hch
      rcases h12r with h | h
      · exact absurd rfl h
      · rcases h21r with h2 | h2
        · exact absurd rfl h2
        · rw [ih bs h h2]

theorem strLt_irrefl (a : String) : strLt a a = false := lexLt_irrefl a.data

theorem strLt_asymm {a b : String} (h : strLt a b = true) : strLt b a = false :=
  lexLt_asymm a.data b.data h

theorem strLt_trans {a b c : String} (h1 : strLt a b = true) (h2 : strLt b c = true) :
    strLt a c = true :=
  lexLt_trans a.data b.data c.data h1 h2

theorem strLt_eq_of_not_lt {a b : String} (h1 : strLt a b = false)
    (h2 : strLt b a = false) : a = b := by
  cases a with
  | mk la =>
    cases b with
    | mk lb =>
      rw [lexLt_eq_of_not_lt la lb h1 h2]

instance : IsTotal String strLe where
  total a b := by
    unfold strLe
    cases h : strLt b a with
    | false => exact Or.inl rfl
    | true => exact Or.inr (strLt_asymm h)

instance : IsTrans String strLe where
  trans a b c hab hbc := by
    unfold strLe at hab hbc ⊢
    cases h : strLt c a with
    | false => rfl
    | true =>
      exfalso
      cases hab2 : strLt a b with
      | true =>
        have := strLt_trans h hab2
        rw [hbc] at this
        cases this
      | false =>
        have heq : a = b := strLt_eq_of_not_lt hab2 hab
        subst heq
        rw [hbc] at h
        cases h

theorem pySorted_perm (l : List String) : (pySorted l).Perm l :=
  List.perm_insertionSort strLe l

theorem pySorted_sorted (l : List String) : List.Sorted strLe (pySorted l) :=
  List.sorted_insertionSort strLe l

theorem pySorted_nodup {l : List String} (h : l.Nodup) : (pySorted l).Nodup :=
  (pySorted_perm l).nodup_iff.mpr h

theorem pySorted_strict {l : List String} (h : l.Nodup) :
    List.Pairwise (fun a b => strLt a b = true) (pySorted l) := by
  have hs : List.Pairwise strLe (pySorted l) := pySorted_sorted l
  have hn : List.Pairwise (fun a b : String => a ≠ b) (pySorted l) := pySorted_nodup h
  refine (hs.and hn).imp ?_
  intro a b hab
  obtain ⟨hle, hne⟩ := hab
  cases hlt : strLt a b with
  | true => rfl
  | false => exact absurd (strLt_eq_of_not_lt hlt hle) hne

theorem dictKeys_length {α : Type} (l : List (String × α)) :
    (dictKeys l).length = l.length := List.length_map l _

theorem pyGet_eq_none_iff {α : Type} (l : List (String × α)) (k : String) :
    pyGet l k = none ↔ k ∉ dictKeys l := by
  unfold pyGet dictKeys
  rw [Option.map_eq_none', List.find?_eq_none]
  constructor
  · intro hall hk
    obtain ⟨kv, hkv, hfst⟩ := List.mem_map.mp hk
    exact hall kv hkv (by simp [hfst])
  · intro hnm kv hkv
    simp only [beq_iff_eq, decide_eq_true_eq]
    intro hfst
    exact hnm (List.mem_map.mpr ⟨kv, hkv, hfst⟩)

theorem pyGet_dictInsert_self {α : Type} (k : String) (v : α) (l : List (String × α)) :
    pyGet (dictInsert k v l) k = some v := by
  induction l with
  | nil => simp [pyGet, dictInsert]
  | cons kv rest ih =>
    by_cases h : kv.1 = k
    · simp [pyGet, dictInsert, h]
    · have hstep : dictInsert k v (kv :: rest) = kv :: dictInsert k v rest := by
        simp [dictInsert, h]
      rw [hstep]
      unfold pyGet
      rw [List.find?_cons_of_neg _ (by simp [h])]
      exact ih

theorem dictInsert_eq_self {α : Type} {k : String} {v : α} {l : List (String × α)}
    (h : pyGet l k = some v) : dictInsert k v l = l := by
  induction l with
  | nil => simp [pyGet] at h
  | cons kv rest ih =>
    by_cases hk : kv.1 = k
    · have hv : kv.2 = v := by
        simp [pyGet, List.find?_cons, hk] at h
        exact h
      simp only [dictInsert, beq_iff_eq, hk, if_true]
      rw [← hk, ← hv]
    · have hrest : pyGet rest k = some v := by
        simpa [pyGet, List.find?_cons, hk] using h
      simp only [dictInsert, beq_iff_eq, hk, if_false]
      rw [ih hrest]

theorem dictInsert_not_mem_append {α : Type} {k : String} {l : List (String × α)}
    (h : k ∉ dictKeys l) (v : α) : dictInsert k v l = l ++ [(k, v)] := by
  induction l with
  | nil => rfl
  | cons kv rest ih =>
    simp only [dictKeys, List.map_cons, List.mem_cons, not_or] at h
    obtain ⟨h1, h2⟩ := h
    simp only [dictInsert, beq_iff_eq]
    rw [if_neg (fun hh => h1 hh.symm), ih h2, List.cons_append]

theorem dictKeys_dictInsert_mem {α : Type} {k : String} {l : List (String × α)}
    (h : k ∈ dictKeys l) (v : α) : dictKeys (dictInsert k v l) = dictKeys l := by
  induction l with
  | nil => cases h
  | cons kv rest ih =>
    by_cases hk : kv.1 = k
    · simp [dictInsert, dictKeys, hk]
    · have h2 : k ∈ dictKeys rest := by
        simp only [dictKeys, List.map_cons, List.mem_cons] at h
        rcases h with h | h
        · exact absurd h.symm hk
        · exact h
      have h3 := ih h2
      simp only [dictKeys] at h3 ⊢
      simp [dictInsert, hk, h3]

theorem dictKeys_dictInsert_not_mem {α : Type} {k : String} {l : List (String × α)}
    (h : k ∉ dictKeys l) (v : α) : dictKeys (dictInsert k v l) = dictKeys l ++ [k] := by
  rw [dictInsert_not_mem_append h v]
  simp [dictKeys]

theorem dictInsert_nodup {α : Type} {k : String} {l : List (String × α)}
    (hn : (dictKeys l).Nodup) (v : α) : (dictKeys (dictInsert k v l)).Nodup := by
  by_cases h : k ∈ dictKeys l
  · rw [dictKeys_dictInsert_mem h v]
    exact hn
  · rw [dictKeys_dictInsert_not_mem h v]
    refine List.nodup_append.mpr ⟨hn, List.nodup_singleton k, ?_⟩
    intro a ha hb
    rw [List.mem_singleton] at hb
    exact h (hb ▸ ha)

theorem pyGet_mem_nodup {α : Type} {l : List (String × α)} {k : String} {v : α}
    (hn : (dictKeys l).Nodup) (hm : (k, v) ∈ l) : pyGet l k = some v := by
  induction l with
  | nil => cases hm
  | cons kv rest ih =>
    simp only [dictKeys, List.map_cons, List.nodup_cons] at hn
    obtain ⟨hh, hrest⟩ := hn
    rcases List.mem_cons.mp hm with heq | hmem
    · rw [← heq]
      simp [pyGet, List.find?_cons]
    · have hk : kv.1 ≠ k := by
        intro hkk
        exact hh (hkk ▸ List.mem_map.mpr ⟨(k, v), hmem, rfl⟩)
      unfold pyGet
      rw [List.find?_cons_of_neg _ (by simp [hk])]
      exact ih hrest hmem

theorem dictKeys_filter_key {α : Type} (l : List (String × α)) (p : String → Bool) :
    dictKeys (l.filter (fun kv => p kv.1)) = (dictKeys l).filter p := by
  unfold dictKeys
  induction l with
  | nil => rfl
  | cons kv rest ih =>
    rw [List.filter_cons, List.map_cons, List.filter_cons]
    cases hp : p kv.1 <;> simp [hp, ih]

theorem pyDelKeys_eq_filter {α : Type} (l : List (String × α)) (ks : List String) :
    pyDelKeys l ks = l.filter (fun kv => !(ks.contains kv.1)) := by
  induction ks generalizing l with
  | nil =>
    show l = _
    rw [List.filter_congr (q := fun _ => true) (by intro x hx; rfl), List.filter_true]
  | cons k ks ih =>
    show pyDelKeys (l.filter (fun kv => kv.1 != k)) ks = _
    rw [ih, List.filter_filter]
    refine List.filter_congr ?_
    intro kv hkv
    show (!(ks.contains kv.1) && (kv.1 != k)) = !((k :: ks).contains kv.1)
    rw [List.contains_cons]
    cases h1 : kv.1 == k <;> cases h2 : ks.contains kv.1 <;> simp [bne, h1, h2]

/-- The value of a (big-endian) digit list. -/
def natOfDigits : List Nat → Nat
  | [] => 0
  | d :: ds => d * 10 ^ ds.length + natOfDigits ds

theorem natOfDigits_lt (ds : List Nat) (h : ∀ x ∈ ds, x < 10) :
    natOfDigits ds < 10 ^ ds.length := by
  induction ds with
  | nil => simp [natOfDigits]
  | cons d ds ih =>
    have hd : d < 10 := h d (by simp)
    have hih := ih (fun x hx => h x (by simp [hx]))
    simp only [natOfDigits, List.length_cons, pow_succ]
    have h1 : d * 10 ^ ds.length ≤ 9 * 10 ^ ds.length :=
      Nat.mul_le_mul_right _ (by omega)
    omega

theorem digitChar_toNat {v : Nat} (h : v < 10) : (digitChar v).toNat = 48 + v := by
  interval_cases v <;> rfl

theorem digit_block_lt_iff (d e nds nes P : Nat) (hnds : nds < P) (hnes : nes < P) :
    (d * P + nds < e * P + nes) ↔ (d < e ∨ (d = e ∧ nds < nes)) := by
  constructor
  · intro h
    by_cases hde : d = e
    · subst hde
      right
      exact ⟨rfl, by omega⟩
    · left
      by_contra hlt
      have h2 : (e + 1) * P ≤ d * P := Nat.mul_le_mul_right _ (by omega)
      have h3 : (e + 1) * P = e * P + P := by ring
      omega
  · rintro (h | ⟨heq, h⟩)
    · have h2 : (d + 1) * P ≤ e * P := Nat.mul_le_mul_right _ (by omega)
      have h3 : (d + 1) * P = d * P + P := by ring
      omega
    · subst heq
      omega

theorem lexLt_digits_iff : ∀ (ds es : List Nat) (r1 r2 : List Char),
    (∀ x ∈ ds, x < 10) → (∀ x ∈ es, x < 10) → ds.length = es.length →
    ((lexLt (ds.map digitChar ++ r1) (es.map digitChar ++ r2) = true) ↔
      (natOfDigits ds < natOfDigits es ∨ (ds = es ∧ lexLt r1 r2 = true)))
  | [], [], r1, r2, _, _, _ => by simp [natOfDigits]
  | [], e :: es, _, _, _, _, hlen => by simp at hlen
  | d :: ds, [], _, _, _, _, hlen => by simp at hlen
  | d :: ds, e :: es, r1, r2, hd, he, hlen => by
    have hd0 : d < 10 := hd d (by simp)
    have he0 : e < 10 := he e (by simp)
    have hlen2 : ds.length = es.length := by simpa using hlen
    have hih := lexLt_digits_iff ds es r1 r2 (fun x hx => hd x (by simp [hx]))
      (fun x hx => he x (by simp [hx])) hlen2
    have hnd := natOfDigits_lt ds (fun x hx => hd x (by simp [hx]))
    have hne := natOfDigits_lt es (fun x hx => he x (by simp [hx]))
    have hP : (10 : Nat) ^ es.length = 10 ^ ds.length := by rw [hlen2]
    have harith := digit_block_lt_iff d e (natOfDigits ds) (natOfDigits es)
      (10 ^ ds.length) hnd (by omega)
    simp only [List.map_cons, List.cons_append, lexLt, Bool.or_eq_true, Bool.and_eq_true,
      beq_iff_eq, decide_eq_true_eq, digitChar_toNat hd0, digitChar_toNat he0,
      List.append_eq]
    rw [hih]
    constructor
    · rintro (h48 | ⟨h48eq, hrest⟩)
      · left
        show natOfDigits (d :: ds) < natOfDigits (e :: es)
        simp only [natOfDigits]
        rw [hP]
        exact harith.mpr (Or.inl (by omega))
      · rcases hrest with hlt | ⟨heqs, hr⟩
        · left
          show natOfDigits (d :: ds) < natOfDigits (e :: es)
          simp only [natOfDigits]
          rw [hP]
          exact harith.mpr (Or.inr ⟨by omega, hlt⟩)
        · right
          refine ⟨?_, hr⟩
          rw [show d = e from by omega, heqs]
    · rintro (h | ⟨heq, hr⟩)
      · simp only [natOfDigits] at h
        rw [hP] at h
        rcases harith.mp h with hlt | ⟨heq, hlt⟩
        · exact Or.inl (by omega)
        · exact Or.inr ⟨by omega, Or.inl hlt⟩
      · have h1 : d = e := by
          have := congrArg (fun l => List.headD l 0) heq
          simpa using this
        have h2 : ds = es := by
          have := congrArg List.tail heq
          simpa using this
        exact Or.inr ⟨by omega, Or.inr ⟨h2, hr⟩⟩

theorem digitVal_some {c : Char} {v : Nat} (h : digitVal c = some v) :
    c = digitChar v ∧ v < 10 := by
  unfold digitVal at h
  split at h
  · rename_i hc
    have hv : v = c.toNat - 48 := (Option.some.inj h).symm
    have hvlt : v < 10 := by omega
    refine ⟨?_, hvlt⟩
    apply char_eq_of_toNat_eq
    rw [digitChar_toNat hvlt]
    omega
  · cases h

theorem renderYMD_data (x : YMD) : (renderYMD x).data =
    [x.y / 1000 % 10, x.y / 100 % 10, x.y / 10 % 10, x.y % 10].map digitChar ++
      '-' :: ([x.m / 10 % 10, x.m % 10].map digitChar ++
        '-' :: ([x.d / 10 % 10, x.d % 10].map digitChar ++ ([] : List Char))) := rfl

theorem natOfDigits_four (n : Nat) (hn : n < 10000) :
    natOfDigits [n / 1000 % 10, n / 100 % 10, n / 10 % 10, n % 10] = n := by
  simp only [natOfDigits, List.length_cons, List.length_nil]
  norm_num
  omega

theorem natOfDigits_two (n : Nat) (hn : n < 100) :
    natOfDigits [n / 10 % 10, n % 10] = n := by
  simp only [natOfDigits, List.length_cons, List.length_nil]
  norm_num
  omega

theorem strLt_renderYMD_iff (t u : YMD) (hty : t.y < 10000) (htm : t.m < 100)
    (htd : t.d < 100) (huy : u.y < 10000) (hum : u.m < 100) (hud : u.d < 100) :
    (strLt (renderYMD t) (renderYMD u) = true) ↔
      (t.y < u.y ∨ (t.y = u.y ∧ (t.m < u.m ∨ (t.m = u.m ∧ t.d < u.d)))) := by
  have hdash : ∀ a b : List Char, lexLt ('-' :: a) ('-' :: b) = lexLt a b := by
    intro a b
    simp [lexLt]
  have hyeq : ∀ a b : Nat, a < 10000 → b < 10000 →
      (([a / 1000 % 10, a / 100 % 10, a / 10 % 10, a % 10] : List Nat) =
        [b / 1000 % 10, b / 100 % 10, b / 10 % 10, b % 10] ↔ a = b) := by
    intro a b ha hb
    constructor
    · intro h
      have := congrArg natOfDigits h
      rwa [natOfDigits_four a ha, natOfDigits_four b hb] at this
    · intro h
      rw [h]
  have hmeq : ∀ a b : Nat, a < 100 → b < 100 →
      (([a / 10 % 10, a % 10] : List Nat) = [b / 10 % 10, b % 10] ↔ a = b) := by
    intro a b ha hb
    constructor
    · intro h
      have := congrArg natOfDigits h
      rwa [natOfDigits_two a ha, natOfDigits_two b hb] at this
    · intro h
      rw [h]
  unfold strLt
  rw [renderYMD_data, renderYMD_data]
  rw [lexLt_digits_iff _ _ _ _
    (by intro x hx; simp at hx; rcases hx with h | h | h | h <;> omega)
    (by intro x hx; simp at hx; rcases hx with h | h | h | h <;> omega) (by simp)]
  rw [hdash]
  rw [lexLt_digits_iff _ _ _ _
    (by intro x hx; simp at hx; rcases hx with h | h <;> omega)
    (by intro x hx; simp at hx; rcases hx with h | h <;> omega) (by simp)]
  rw [hdash]
  rw [lexLt_digits_iff _ _ _ _
    (by intro x hx; simp at hx; rcases hx with h | h <;> omega)
    (by intro x hx; simp at hx; rcases hx with h | h <;> omega) (by simp)]
  rw [natOfDigits_four t.y hty, natOfDigits_four u.y huy,
    natOfDigits_two t.m htm, natOfDigits_two u.m hum,
    natOfDigits_two t.d htd, natOfDigits_two u.d hud,
    hyeq t.y u.y hty huy, hmeq t.m u.m htm hum, hmeq t.d u.d htd hud]
  simp [lexLt]

theorem daysInMonth_le (y m : Nat) : daysInMonth y m ≤ 31 := by
  unfold daysInMonth
  split
  · split <;> omega
  · split <;> omega

theorem parseYMD_shape {s : String} {t : YMD} (h : parseYMD s = some t) :
    s.data = (renderYMD t).data ∧ t.y < 10000 ∧ 1 ≤ t.m ∧ t.m ≤ 12 ∧
      1 ≤ t.d ∧ t.d ≤ 31 := by
  unfold parseYMD at h
  split at h
  · rename_i c1 c2 c3 c4 c5 c6 c7 c8 c9 c10 hdata
    split at h
    · rename_i a b c d e f g hh ha hb hc hd2 he hf hg hh2
      split at h
      · rename_i hdashes
        split at h
        · rename_i hrange
          have ht := Option.some.inj h
          obtain ⟨hca, halt⟩ := digitVal_some ha
          obtain ⟨hcb, hblt⟩ := digitVal_some hb
          obtain ⟨hcc, hclt⟩ := digitVal_some hc
          obtain ⟨hcd, hdlt⟩ := digitVal_some hd2
          obtain ⟨hce, helt⟩ := digitVal_some he
          obtain ⟨hcf, hflt⟩ := digitVal_some hf
          obtain ⟨hcg, hglt⟩ := digitVal_some hg
          obtain ⟨hch, hhlt⟩ := digitVal_some hh2
          obtain ⟨hd1, hd2'⟩ := hdashes
          subst ht
          refine ⟨?_, by show 1000 * a + 100 * b + 10 * c + d < 10000; omega,
            hrange.1, hrange.2.1, hrange.2.2.1,
            le_trans hrange.2.2.2 (daysInMonth_le _ _)⟩
          rw [hdata, renderYMD_data]
          simp only [List.map_cons, List.map_nil, List.cons_append, List.nil_append]
          have e1 : (1000 * a + 100 * b + 10 * c + d) / 1000 % 10 = a := by omega
          have e2 : (1000 * a + 100 * b + 10 * c + d) / 100 % 10 = b := by omega
          have e3 : (1000 * a + 100 * b + 10 * c + d) / 10 % 10 = c := by omega
          have e4 : (1000 * a + 100 * b + 10 * c + d) % 10 = d := by omega
          have e5 : (10 * e + f) / 10 % 10 = e := by omega
          have e6 : (10 * e + f) % 10 = f := by omega
          have e7 : (10 * g + hh) / 10 % 10 = g := by omega
          have e8 : (10 * g + hh) % 10 = hh := by omega
          rw [e1, e2, e3, e4, e5, e6, e7, e8]
          rw [hca, hcb, hcc, hcd, hce, hcf, hcg, hch, hd1, hd2']
        · cases h
      · cases h
    · cases h
  · cases h

theorem parseYMD_eq_render {s : String} {t : YMD} (h : parseYMD s = some t) :
    s = renderYMD t := by
  have hs := (parseYMD_shape h).1
  cases s with
  | mk l =>
    cases hrm : renderYMD t with
    | mk l2 =>
      have : l = l2 := by
        have := hs
        rw [hrm] at this
        exact this
      rw [this]

theorem dateKeyLt_of_strLt {k1 k2 : String} (h1 : (parseYMD k1).isSome = true)
    (h2 : (parseYMD k2).isSome = true) (hlt : strLt k1 k2 = true) :
    dateKeyLt k1 k2 = true := by
  obtain ⟨t1, ht1⟩ := Option.isSome_iff_exists.mp h1
  obtain ⟨t2, ht2⟩ := Option.isSome_iff_exists.mp h2
  obtain ⟨_, hb1y, hb1m1, hb1m2, hb1d1, hb1d2⟩ := parseYMD_shape ht1
  obtain ⟨_, hb2y, hb2m1, hb2m2, hb2d1, hb2d2⟩ := parseYMD_shape ht2
  have hr1 := parseYMD_eq_render ht1
  have hr2 := parseYMD_eq_render ht2
  have hlt2 : strLt (renderYMD t1) (renderYMD t2) = true := by
    rw [← hr1, ← hr2]
    exact hlt
  have hord := (strLt_renderYMD_iff t1 t2 hb1y (by omega) (by omega) hb2y (by omega)
    (by omega)).mp hlt2
  unfold dateKeyLt
  rw [ht1, ht2]
  simp only [Bool.or_eq_true, Bool.and_eq_true, beq_iff_eq, decide_eq_true_eq]
  tauto

theorem contains_eq_false_of_not_mem {l : List String} {a : String} (h : a ∉ l) :
    l.contains a = false := by
  cases hc : l.contains a with
  | false => rfl
  | true => exact absurd (List.elem_iff.mp hc) h

theorem filter_not_contains_eq_drop (tk dr : List String) (hnd : (tk ++ dr).Nodup) :
    (tk ++ dr).filter (fun k => !(tk.contains k)) = dr := by
  rw [List.filter_append]
  have h1 : tk.filter (fun k => !(tk.contains k)) = [] := by
    rw [List.filter_eq_nil_iff]
    intro a ha
    simp [ha]
  have hdisj := List.disjoint_of_nodup_append hnd
  have h2 : dr.filter (fun k => !(tk.contains k)) = dr := by
    refine (List.filter_congr ?_).trans (List.filter_true _)
    intro x hx
    have hnm : x ∉ tk := fun hmem => hdisj hmem hx
    simp [hnm]
  rw [h1, h2, List.nil_append]

theorem delKeys_take_perm {α : Type} (l : List (String × α)) (c : Nat)
    (hn : (dictKeys l).Nodup) :
    (dictKeys (pyDelKeys l ((pySorted (dictKeys l)).take c))).Perm
      ((pySorted (dictKeys l)).drop c) := by
  rw [pyDelKeys_eq_filter,
    dictKeys_filter_key l (fun k => !(((pySorted (dictKeys l)).take c).contains k))]
  have hperm := (pySorted_perm (dictKeys l)).symm.filter
    (fun k => !(((pySorted (dictKeys l)).take c).contains k))
  refine hperm.trans ?_
  have hnd : ((pySorted (dictKeys l)).take c ++ (pySorted (dictKeys l)).drop c).Nodup := by
    rw [List.take_append_drop c (pySorted (dictKeys l))]
    exact pySorted_nodup hn
  set p := fun k => !(((pySorted (dictKeys l)).take c).contains k) with hp
  have hkey : List.filter p
      ((pySorted (dictKeys l)).take c ++ (pySorted (dictKeys l)).drop c) =
      (pySorted (dictKeys l)).drop c := by
    rw [hp]
    exact filter_not_contains_eq_drop _ _ hnd
  conv_lhs => rw [← List.take_append_drop c (pySorted (dictKeys l))]
  rw [hkey]

theorem delKeys_mem_subset {α : Type} (l : List (String × α)) (ks : List String)
    (kv : String × α) (h : kv ∈ pyDelKeys l ks) : kv ∈ l := by
  rw [pyDelKeys_eq_filter] at h
  exact (List.mem_filter.mp h).1

theorem delKeys_keys_iff {α : Type} (l : List (String × α)) (ks : List String)
    (k : String) : k ∈ dictKeys (pyDelKeys l ks) ↔
      (k ∈ dictKeys l ∧ ks.contains k = false) := by
  rw [pyDelKeys_eq_filter, dictKeys_filter_key l (fun k => !(ks.contains k)),
    List.mem_filter]
  constructor
  · rintro ⟨h1, h2⟩
    refine ⟨h1, ?_⟩
    cases hc : ks.contains k with
    | false => rfl
    | true => rw [hc] at h2; cases h2
  · rintro ⟨h1, h2⟩
    exact ⟨h1, by rw [h2]; rfl⟩

theorem take_drop_strLt (l : List String) (c : Nat) (hn : l.Nodup) :
    ∀ a ∈ (pySorted l).take c, ∀ b ∈ (pySorted l).drop c, strLt a b = true := by
  have hp := pySorted_strict hn
  rw [← List.take_append_drop c (pySorted l)] at hp
  exact (List.pairwise_append.mp hp).2.2

theorem save_history_ok_iff (st : Store) (today : String) (data : Snapshot)
    (h' : HistDict) : save_history st today data = .ok (some (.valid h')) ↔
      newHistoryAfterSave st today data = .ok h' := by
  unfold save_history
  cases hn : newHistoryAfterSave st today data with
  | error e =>
    constructor
    · intro h
      simp [Except.map] at h
    · intro h
      cases h
  | ok h0 =>
    constructor
    · intro h
      simp only [Except.map] at h
      have := Except.ok.inj h
      rw [show h0 = h' from by
        have := Option.some.inj this
        exact StoreContents.valid.inj this]
    · intro h
      have := Except.ok.inj h
      rw [this]
      rfl

theorem newHistoryAfterSave_eq_of_ok (st : Store) (today : String) (data : Snapshot)
    (hst : st ≠ some .corrupt) :
    newHistoryAfterSave st today data = .ok (
      if 7 < (dictInsert today data (loadedHist st)).length then
        pyDelKeys (dictInsert today data (loadedHist st))
          ((pySorted (dictKeys (dictInsert today data (loadedHist st)))).take
            ((dictKeys (dictInsert today data (loadedHist st))).length - 7))
      else dictInsert today data (loadedHist st)) := by
  cases st with
  | none =>
    simp only [newHistoryAfterSave, load_history, loadedHist, Bind.bind, Except.bind]
    split <;> rfl
  | some sc =>
    cases sc with
    | valid hist =>
      simp only [newHistoryAfterSave, load_history, loadedHist, Bind.bind, Except.bind]
      split <;> rfl
    | corrupt => exact absurd rfl hst

theorem evict_core {α : Type} (h0 : List (String × α)) (hnd0 : (dictKeys h0).Nodup)
    (hbig : 7 < h0.length) :
    (pyDelKeys h0 ((pySorted (dictKeys h0)).take ((dictKeys h0).length - 7))).length = 7 ∧
    (∀ kv ∈ pyDelKeys h0 ((pySorted (dictKeys h0)).take ((dictKeys h0).length - 7)),
      kv ∈ h0) ∧
    (∀ k ∈ dictKeys h0,
      k ∉ dictKeys (pyDelKeys h0 ((pySorted (dictKeys h0)).take
        ((dictKeys h0).length - 7))) →
      ∀ k2 ∈ dictKeys (pyDelKeys h0 ((pySorted (dictKeys h0)).take
        ((dictKeys h0).length - 7))), strLt k k2 = true) := by
  have hkperm := delKeys_take_perm h0 ((dictKeys h0).length - 7) hnd0
  have hsortlen : (pySorted (dictKeys h0)).length = h0.length := by
    rw [(pySorted_perm _).length_eq, dictKeys_length]
  have hklen := dictKeys_length h0
  have hlen : (pyDelKeys h0 ((pySorted (dictKeys h0)).take
      ((dictKeys h0).length - 7))).length = 7 := by
    rw [← dictKeys_length, hkperm.length_eq, List.length_drop, hsortlen]
    omega
  refine ⟨hlen, fun kv hkv => delKeys_mem_subset _ _ _ hkv, ?_⟩
  intro k hk hnk k2 hk2
  have hkev : k ∈ (pySorted (dictKeys h0)).take ((dictKeys h0).length - 7) := by
    cases hcc : ((pySorted (dictKeys h0)).take ((dictKeys h0).length - 7)).contains k with
    | false => exact absurd ((delKeys_keys_iff h0 _ k).mpr ⟨hk, hcc⟩) hnk
    | true => exact List.elem_iff.mp hcc
  have hk2dr : k2 ∈ (pySorted (dictKeys h0)).drop ((dictKeys h0).length - 7) :=
    hkperm.mem_iff.mp hk2
  exact take_drop_strLt (dictKeys h0) _ hnd0 k hkev k2 hk2dr

theorem loadedHist_keys_nodup (st : Store) (hwf : storeWF st) :
    (dictKeys (loadedHist st)).Nodup := by
  cases st with
  | none => exact List.nodup_nil
  | some sc =>
    cases sc with
    | valid hist => exact hwf
    | corrupt => exact List.nodup_nil

/-- C1: after every successful save, the persisted history holds at most
KEEP_DAYS (7) entries; when inserting the entry for today pushes the
count above 7, exactly 7 remain, every retained entry was present before
eviction, and every evicted date key is calendar-older (by parsed
YYYY-MM-DD value, not by insertion position) than every retained key —
so the retained keys are exactly the 7 most recent calendar dates. -/
theorem c1_retention_bound (st : Store) (today : String) (data : Snapshot)
    (h' : HistDict) (hwf : storeWF st)
    (hvalid : ∀ k ∈ dictKeys (dictInsert today data (loadedHist st)),
      (parseYMD k).isSome = true)
    (hsave : save_history st today data = .ok (some (.valid h'))) :
    h'.length ≤ 7 ∧
    h'.length = min 7 (dictInsert today data (loadedHist st)).length ∧
    (∀ kv ∈ h', kv ∈ dictInsert today data (loadedHist st)) ∧
    (∀ k ∈ dictKeys (dictInsert today data (loadedHist st)), k ∉ dictKeys h' →
      ∀ k2 ∈ dictKeys h', dateKeyLt k k2 = true) := by
  have hst : st ≠ some .corrupt := by
    intro hc
    subst hc
    rw [save_history_ok_iff] at hsave
    simp [newHistoryAfterSave, load_history, Bind.bind, Except.bind] at hsave
  have hnew := (save_history_ok_iff st today data h').mp hsave
  rw [newHistoryAfterSave_eq_of_ok st today data hst] at hnew
  have hite := Except.ok.inj hnew
  have hnd0 : (dictKeys (dictInsert today data (loadedHist st))).Nodup :=
    dictInsert_nodup (loadedHist_keys_nodup st hwf) data
  by_cases hbig : 7 < (dictInsert today data (loadedHist st)).length
  · rw [if_pos hbig] at hite
    obtain ⟨hlen, hsub, hstrict⟩ :=
      evict_core (dictInsert today data (loadedHist st)) hnd0 hbig
    subst hite
    refine ⟨by omega, by omega, hsub, ?_⟩
    intro k hk hnk k2 hk2
    exact dateKeyLt_of_strLt (hvalid k hk)
      (hvalid k2 ((delKeys_keys_iff _ _ _).mp hk2).1) (hstrict k hk hnk k2 hk2)
  · rw [if_neg hbig] at hite
    subst hite
    refine ⟨by omega, by omega, fun kv hkv => hkv, ?_⟩
    intro k hk hnk k2 hk2
    exact absurd hk hnk

def c1Store : Store := some (.valid [("2024-01-01", []), ("2024-01-02", []),
  ("2024-01-03", []), ("2024-01-04", []), ("2024-01-05", []), ("2024-01-06", []),
  ("2024-01-07", [])])

def c1Result : HistDict := [("2024-01-02", []), ("2024-01-03", []),
  ("2024-01-04", []), ("2024-01-05", []), ("2024-01-06", []), ("2024-01-07", []),
  ("2024-01-08", [])]

theorem c1_retention_bound_witness :
    c1Result.length ≤ 7 ∧
    c1Result.length = min 7 (dictInsert "2024-01-08" [] (loadedHist c1Store)).length ∧
    (∀ kv ∈ c1Result, kv ∈ dictInsert "2024-01-08" [] (loadedHist c1Store)) ∧
    (∀ k ∈ dictKeys (dictInsert "2024-01-08" [] (loadedHist c1Store)),
      k ∉ dictKeys c1Result → ∀ k2 ∈ dictKeys c1Result, dateKeyLt k k2 = true) :=
  c1_retention_bound c1Store "2024-01-08" [] c1Result (by decide) (by decide)
    (by decide)

theorem dictInsert_self_mem {α : Type} (k : String) (v : α) (l : List (String × α)) :
    (k, v) ∈ dictInsert k v l := by
  induction l with
  | nil => simp [dictInsert]
  | cons kv rest ih =>
    by_cases h : kv.1 = k
    · simp [dictInsert, h]
    · simp only [dictInsert, beq_iff_eq, h, if_false]
      exact List.mem_cons_of_mem kv ih

theorem delKeys_nodup {α : Type} (l : List (String × α)) (ks : List String)
    (hn : (dictKeys l).Nodup) : (dictKeys (pyDelKeys l ks)).Nodup := by
  rw [pyDelKeys_eq_filter, dictKeys_filter_key l (fun k => !(ks.contains k))]
  exact hn.filter _

theorem pySorted_head_of_strict_min (l : List String) (x : String) (hx : x ∈ l)
    (hmin : ∀ y ∈ l, y ≠ x → strLt x y = true) :
    ∃ rest, pySorted l = x :: rest := by
  cases hsrt : pySorted l with
  | nil =>
    have hmem : x ∈ pySorted l := (pySorted_perm l).mem_iff.mpr hx
    rw [hsrt] at hmem
    cases hmem
  | cons z rest =>
    refine ⟨rest, ?_⟩
    by_cases hz : z = x
    · rw [hz]
    · exfalso
      have hzl : z ∈ l := (pySorted_perm l).mem_iff.mp (by
        rw [hsrt]
        exact List.mem_cons_self z rest)
      have hxs : x ∈ z :: rest := by
        rw [← hsrt]
        exact (pySorted_perm l).mem_iff.mpr hx
      have hxrest : x ∈ rest := by
        rcases List.mem_cons.mp hxs with h | h
        · exact absurd h.symm hz
        · exact h
      have hsorted := pySorted_sorted l
      rw [hsrt] at hsorted
      have hle : strLe z x := List.rel_of_sorted_cons hsorted x hxrest
      have hlt : strLt x z = true := hmin z hzl hz
      unfold strLe at hle
      rw [hlt] at hle
      cases hle

theorem dictKeys_append_single {α : Type} (l : List (String × α)) (k : String) (v : α) :
    dictKeys (l ++ [(k, v)]) = dictKeys l ++ [k] := by
  simp [dictKeys]

theorem mem_dictKeys_exists {α : Type} {l : List (String × α)} {k : String}
    (h : k ∈ dictKeys l) : ∃ v, (k, v) ∈ l := by
  obtain ⟨kv, hkv, hfst⟩ := List.mem_map.mp h
  exact ⟨kv.2, by rw [← hfst]; exact hkv⟩

theorem mem_dictKeys_of_mem {α : Type} {l : List (String × α)} {k : String} {v : α}
    (h : (k, v) ∈ l) : k ∈ dictKeys l :=
  List.mem_map.mpr ⟨(k, v), h, rfl⟩

theorem filter_ne_key_append_self {α : Type} (l : List (String × α)) (k : String)
    (v : α) (hnk : k ∉ dictKeys l) :
    (l ++ [(k, v)]).filter (fun kv => !([k].contains kv.1)) = l := by
  rw [List.filter_append]
  have h1 : l.filter (fun kv => !([k].contains kv.1)) = l := by
    refine (List.filter_congr ?_).trans (List.filter_true _)
    intro kv hkv
    have hne : kv.1 ≠ k := fun he => hnk (he ▸ mem_dictKeys_of_mem hkv)
    simp [List.contains_cons, hne]
  have h2 : ([(k, v)] : List (String × α)).filter (fun kv => !([k].contains kv.1)) = [] := by
    simp [List.filter, List.contains_cons]
  rw [h1, h2, List.append_nil]

/-- C7: calling save_history a second time on the same calendar date
with the same snapshot leaves the persisted store unchanged: the entry
for today is overwritten by key, not appended, and the retention pass
removes nothing new, so repeated same-day saves are idempotent. -/
theorem c7_save_idempotent (st : Store) (today : String) (data : Snapshot)
    (st1 : Store) (hwf : storeWF st)
    (h1 : save_history st today data = .ok st1) :
    save_history st1 today data = .ok st1 := by
  cases hn : newHistoryAfterSave st today data with
  | error e =>
    unfold save_history at h1
    rw [hn] at h1
    simp [Except.map] at h1
  | ok h1v =>
    have hst1 : st1 = some (.valid h1v) := by
      unfold save_history at h1
      rw [hn] at h1
      simp only [Except.map] at h1
      exact (Except.ok.inj h1).symm
    subst hst1
    have hst : st ≠ some .corrupt := by
      intro hc
      subst hc
      simp [newHistoryAfterSave, load_history, Bind.bind, Except.bind] at hn
    rw [newHistoryAfterSave_eq_of_ok st today data hst] at hn
    have hite := Except.ok.inj hn
    have hnd0 : (dictKeys (dictInsert today data (loadedHist st))).Nodup :=
      dictInsert_nodup (loadedHist_keys_nodup st hwf) data
    rw [save_history_ok_iff]
    rw [newHistoryAfterSave_eq_of_ok (some (.valid h1v)) today data (by
      intro hcc
      exact StoreContents.noConfusion (Option.some.inj hcc))]
    refine congrArg Except.ok ?_
    show (if 7 < (dictInsert today data h1v).length then
        pyDelKeys (dictInsert today data h1v)
          ((pySorted (dictKeys (dictInsert today data h1v))).take
            ((dictKeys (dictInsert today data h1v)).length - 7))
      else dictInsert today data h1v) = h1v
    by_cases hbig : 7 < (dictInsert today data (loadedHist st)).length
    · rw [if_pos hbig] at hite
      obtain ⟨hlen, hsub, hstrict⟩ :=
        evict_core (dictInsert today data (loadedHist st)) hnd0 hbig
      rw [hite] at hlen hsub hstrict
      have hnd1 : (dictKeys h1v).Nodup := by
        rw [← hite]
        exact delKeys_nodup _ _ hnd0
      by_cases hmem : today ∈ dictKeys h1v
      · obtain ⟨v, hv⟩ := mem_dictKeys_exists hmem
        have hv0 : (today, v) ∈ dictInsert today data (loadedHist st) := hsub _ hv
        have hvget : pyGet (dictInsert today data (loadedHist st)) today = some v :=
          pyGet_mem_nodup hnd0 hv0
        have hvd : v = data := by
          rw [pyGet_dictInsert_self today data (loadedHist st)] at hvget
          exact (Option.some.inj hvget).symm
        have hget1 : pyGet h1v today = some data := by
          rw [← hvd]
          exact pyGet_mem_nodup hnd1 hv
        have hins : dictInsert today data h1v = h1v := dictInsert_eq_self hget1
        rw [hins, if_neg (by omega)]
      · have htoday0 : today ∈ dictKeys (dictInsert today data (loadedHist st)) :=
          mem_dictKeys_of_mem (dictInsert_self_mem today data (loadedHist st))
        have hins : dictInsert today data h1v = h1v ++ [(today, data)] :=
          dictInsert_not_mem_append hmem data
        have hkeys : dictKeys (dictInsert today data h1v) = dictKeys h1v ++ [today] := by
          rw [hins, dictKeys_append_single]
        have hlen8 : (dictInsert today data h1v).length = 8 := by
          rw [hins, List.length_append, hlen]
          rfl
        have hmin : ∀ y ∈ dictKeys (dictInsert today data h1v), y ≠ today →
            strLt today y = true := by
          intro y hy hne
          rw [hkeys] at hy
          rcases List.mem_append.mp hy with h | h
          · exact hstrict today htoday0 hmem y h
          · rw [List.mem_singleton] at h
            exact absurd h hne
        have htm : today ∈ dictKeys (dictInsert today data h1v) := by
          rw [hkeys]
          simp
        obtain ⟨rest, hhead⟩ := pySorted_head_of_strict_min _ today htm hmin
        rw [if_pos (by omega)]
        have hclen : (dictKeys (dictInsert today data h1v)).length - 7 = 1 := by
          rw [dictKeys_length, hlen8]
        rw [hclen, hhead]
        rw [show List.take 1 (today :: rest) = [today] from rfl]
        rw [pyDelKeys_eq_filter, hins]
        exact filter_ne_key_append_self h1v today data hmem
    · rw [if_neg hbig] at hite
      have hget : pyGet h1v today = some data := by
        rw [← hite]
        exact pyGet_dictInsert_self today data (loadedHist st)
      have hins : dictInsert today data h1v = h1v := dictInsert_eq_self hget
      rw [hins, if_neg (show ¬7 < h1v.length by rw [← hite]; exact hbig)]

theorem c7_save_idempotent_witness :
    save_history
      (some (.valid [("2024-01-07", []),
        ("2024-01-08", [("macOS", [("stable", "14.3")])])]))
      "2024-01-08" [("macOS", [("stable", "14.3")])] =
      .ok (some (.valid [("2024-01-07", []),
        ("2024-01-08", [("macOS", [("stable", "14.3")])])])) :=
  c7_save_idempotent (some (.valid [("2024-01-07", [])])) "2024-01-08"
    [("macOS", [("stable", "14.3")])]
    (some (.valid [("2024-01-07", []),
      ("2024-01-08", [("macOS", [("stable", "14.3")])])]))
    (by decide) (by decide)

/-- An item of the Apple developer RSS feed (title and pubDate text). -/
structure RssItem where
  title : String
  pubDate : String
deriving DecidableEq, Repr

/-- One milestone object of the Chromium Dash schedule JSON; absent keys
are none (x.get(key, default)). -/
structure ChromeEntry where
  channel : Option String
  milestone : Option String
  betaPromotion : Option String
  branchPoint : Option String
deriving DecidableEq, Repr

/-- response.json() for Chromium Dash: a single object or a list
(`if isinstance(data, dict): data = [data]`). -/
inductive ChromeJson where
  | obj (e : ChromeEntry)
  | arr (l : List ChromeEntry)
deriving DecidableEq

/-- The ambient inputs of one run: the three network fetches (requests.get
plus parsing may raise) and the external dateutil parser, which returns a
datetime or raises (none) on text it cannot parse. -/
structure RawWorld where
  appleFetch : Except PyErr (List RssItem)
  parseDate : String → Option YMD
  windowsFetch : Except PyErr (List String)
  chromeFetch : Except PyErr ChromeJson

/-- Python \s and str.strip() whitespace (ASCII part). -/
def pyIsSpace (c : Char) : Bool :=
  c.toNat = 32 || c.toNat = 9 || c.toNat = 10 || c.toNat = 13 ||
    c.toNat = 11 || c.toNat = 12

/-- The regex class [\d\.] (ASCII digits, as in the version strings). -/
def isDigitDot (c : Char) : Bool := (48 ≤ c.toNat && c.toNat ≤ 57) || c.toNat = 46

/-- The regex class [\dH]. -/
def isDigitH (c : Char) : Bool := (48 ≤ c.toNat && c.toNat ≤ 57) || c.toNat = 72

/-- The regex class [, ]. -/
def isCommaSpace (c : Char) : Bool := c.toNat = 44 || c.toNat = 32

/-- Python str.lower() (ASCII case folding, enough for these feeds). -/
def lowerStr (s : String) : String := ⟨s.data.map Char.toLower⟩

/-- Python `needle in hay` substring test. -/
def listIsInfix (needle : List Char) : List Char → Bool
  | [] => needle.isEmpty
  | c :: cs => needle.isPrefixOf (c :: cs) || listIsInfix needle cs

def pyIn (needle hay : String) : Bool := listIsInfix needle.data hay.data

/-- Python str.strip(). -/
def pyStrip (l : List Char) : List Char :=
  ((l.dropWhile pyIsSpace).reverse.dropWhile pyIsSpace).reverse

def pyStripStr (s : String) : String := ⟨pyStrip s.data⟩

/-- Python hay.replace(pat, new) for a nonempty pattern (replace all
non-overlapping occurrences, left to right; the script only replaces the
platform name, never an empty pattern). -/
def pyReplace (pat nw : List Char) : List Char → List Char
  | [] => []
  | c :: cs =>
    if h : pat ≠ [] ∧ pat.isPrefixOf (c :: cs) then
      nw ++ pyReplace pat nw ((c :: cs).drop pat.length)
    else
      c :: pyReplace pat nw cs
termination_by l => l.length
decreasing_by
  · simp only [List.length_drop, List.length_cons]
    have hplen : 0 < pat.length := List.length_pos.mpr h.1
    omega
  · simp

/-- Case-insensitive literal match at the start (re.IGNORECASE). -/
def icaseStartsWith : List Char → List Char → Bool
  | [], _ => true
  | _ :: _, [] => false
  | p :: ps, c :: cs => (p.toLower == c.toLower) && icaseStartsWith ps cs

/-- A maximal nonempty run of a character class (greedy X+ at the end of
a pattern, or X+ directly followed by a literal the class excludes, where
greedy matching with backtracking takes exactly the maximal run). -/
def takeClass1 (p : Char → Bool) (s : List Char) : Option (List Char × List Char) :=
  if (s.takeWhile p).isEmpty then none
  else some (s.takeWhile p, s.drop (s.takeWhile p).length)

/-- Lazy gap `.*?lit`: consume the fewest characters (none of them a
newline, since `.` does not match one) up to the first occurrence of the
literal; returns (consumed text including the literal, rest). -/
def findLazy (icase : Bool) (target : List Char) : List Char → Option (List Char × List Char)
  | [] => if target.isEmpty then some ([], []) else none
  | c :: cs =>
    if (if icase then icaseStartsWith target (c :: cs)
        else target.isPrefixOf (c :: cs)) then
      some (List.take target.length (c :: cs), List.drop target.length (c :: cs))
    else if c = '\n' then none
    else
      match findLazy icase target cs with
      | none => none
      | some (consumed, rest) => some (c :: consumed, rest)

/-- re.search: try each start position left to right. -/
def reSearch (f : List Char → Option (List Char)) : List Char → Option (List Char)
  | [] => f []
  | c :: cs =>
    match f (c :: cs) with
    | some m => some m
    | none => reSearch f cs

/-- Sequencing of match steps: none aborts the attempt at this start
position (plain Option bind, written explicitly for easy analysis). -/
def obind {α β : Type} : Option α → (α → Option β) → Option β
  | none, _ => none
  | some a, f => f a

/-- A boolean guard step of a match. -/
def guardB (b : Bool) : Option Unit := if b then some () else none

/-- Consume a single character. -/
def headOpt : List Char → Option (Char × List Char)
  | [] => none
  | c :: cs => some (c, cs)

/-- Match of rf"{os_name}\s[\d\.]+\s.*?beta.*?\)" (IGNORECASE) at one
start position: the literal os_name, one whitespace, a maximal digit/dot
run, one whitespace (backtracking cannot shorten the run since a shorter
run ends on a digit/dot, not whitespace), then the lazy gaps up to "beta"
and up to ")"; group(0) is the matched character list. -/
def appleBetaAt (os s : List Char) : Option (List Char) :=
  obind (guardB (icaseStartsWith os s)) fun _ =>
  obind (headOpt (s.drop os.length)) fun ws2 =>
  obind (guardB (pyIsSpace ws2.1)) fun _ =>
  obind (takeClass1 isDigitDot ws2.2) fun runs3 =>
  obind (headOpt runs3.2) fun w2s4 =>
  obind (guardB (pyIsSpace w2s4.1)) fun _ =>
  obind (findLazy true ['b', 'e', 't', 'a'] w2s4.2) fun c1s5 =>
  obind (findLazy true [')'] c1s5.2) fun c2s6 =>
  some (s.take os.length ++ ws2.1 :: (runs3.1 ++ w2s4.1 :: (c1s5.1 ++ c2s6.1)))

def appleBetaSearch (os s : List Char) : Option (List Char) := reSearch (appleBetaAt os) s

/-- Match of rf"{os_name}\s[\d\.]+" (case sensitive) at one position:
the literal os_name, one whitespace, then the maximal digit/dot run
(greedy + at the end of the pattern). -/
def appleStableAt (os s : List Char) : Option (List Char) :=
  obind (guardB (os.isPrefixOf s)) fun _ =>
  obind (headOpt (s.drop os.length)) fun ws2 =>
  obind (guardB (pyIsSpace ws2.1)) fun _ =>
  obind (takeClass1 isDigitDot ws2.2) fun runs3 =>
  some (s.take os.length ++ ws2.1 :: runs3.1)

def appleStableSearch (os s : List Char) : Option (List Char) :=
  reSearch (appleStableAt os) s

/-- Match of r"Windows\s11[, ]+version\s[\dH]+" at one position ([, ] is
taken maximally; "version" starts with a character outside the class, so
greedy matching cannot succeed with a shorter separator run). -/
def windowsVerAt (s : List Char) : Option (List Char) :=
  obind (guardB (("Windows".data).isPrefixOf s)) fun _ =>
  obind (headOpt (s.drop 7)) fun ws2 =>
  obind (guardB (pyIsSpace ws2.1)) fun _ =>
  obind (guardB (("11".data).isPrefixOf ws2.2)) fun _ =>
  obind (takeClass1 isCommaSpace (ws2.2.drop 2)) fun seps3 =>
  obind (guardB (("version".data).isPrefixOf seps3.2)) fun _ =>
  obind (headOpt (seps3.2.drop 7)) fun w2s4 =>
  obind (guardB (pyIsSpace w2s4.1)) fun _ =>
  obind (takeClass1 isDigitH w2s4.2) fun runr =>
  some ("Windows".data ++ ws2.1 :: ("11".data ++ seps3.1 ++
    "version".data ++ w2s4.1 :: runr.1))

def windowsVerSearch (s : List Char) : Option (List Char) := reSearch windowsVerAt s

def monthAbbr : Nat → String
  | 1 => "Jan" | 2 => "Feb" | 3 => "Mar" | 4 => "Apr" | 5 => "May" | 6 => "Jun"
  | 7 => "Jul" | 8 => "Aug" | 9 => "Sep" | 10 => "Oct" | 11 => "Nov" | 12 => "Dec"
  | _ => "???"

/-- strftime("%d %b %Y"): zero-padded day, month abbreviation, four digit
year. -/
def renderDMonY (x : YMD) : String :=
  ⟨[digitChar (x.d / 10 % 10), digitChar (x.d % 10), ' '] ++ (monthAbbr x.m).data ++
    ' ' :: [digitChar (x.y / 1000 % 10), digitChar (x.y / 100 % 10),
      digitChar (x.y / 10 % 10), digitChar (x.y % 10)]⟩

/-- The per-item state of the Apple scraper loop for one OS. -/
structure AppleState where
  betaFound : Bool
  stableFound : Bool
  vrec : VRec
deriving Repr

/-- One iteration of `for item in items` for a fixed os_name: a beta post
sets beta and beta_release_date (dateparser may raise), a stable post
sets stable; flags stop later posts from overwriting. -/
def apple_item_step (dp : String → Option YMD) (os : String) (st : AppleState)
    (it : RssItem) : Except PyErr AppleState :=
  let title := pyStripStr it.title
  let pubDate := pyStripStr it.pubDate
  if pyIn os title && pyIn "beta" (lowerStr title) && !st.betaFound then
    let betaVal : String := match appleBetaSearch os.data title.data with
      | some m => ⟨m⟩
      | none => title
    match dp pubDate with
    | none => .error .dateParseError
    | some d =>
      .ok { betaFound := true, stableFound := st.stableFound,
            vrec := dictInsert "beta_release_date" (renderDMonY d)
              (dictInsert "beta" betaVal st.vrec) }
  else if pyIn os title && !(pyIn "beta" (lowerStr title)) && !st.stableFound then
    let stableVal : String := match appleStableSearch os.data title.data with
      | some m => ⟨pyStrip (pyReplace os.data [] m)⟩
      | none => title
    .ok { betaFound := st.betaFound, stableFound := true,
          vrec := dictInsert "stable" stableVal st.vrec }
  else .ok st

def apple_fold (dp : String → Option YMD) (os : String) :
    AppleState → List RssItem → Except PyErr AppleState
  | st, [] => .ok st
  | st, it :: rest => do
    let st2 ← apple_item_step dp os st it
    apple_fold dp os st2 rest

/-- The record for one OS after the item loop and the three setdefault
calls. -/
def apple_os_record (dp : String → Option YMD) (items : List RssItem) (os : String) :
    Except PyErr VRec := do
  let st ← apple_fold dp os ⟨false, false, []⟩ items
  pure (dictSetdefault (dictSetdefault (dictSetdefault st.vrec "stable" "-")
    "beta" "-") "beta_release_date" "-")

/-- scrape_apple_versions(): versions = {"macOS": {}, "iPadOS": {}}, the
feed is fetched once (requests.get may raise), then each OS is processed
over the same item list. -/
def scrape_apple_versions (w : RawWorld) : Except PyErr Snapshot := do
  let items ← w.appleFetch
  let mRec ← apple_os_record w.parseDate items "macOS"
  let iRec ← apple_os_record w.parseDate items "iPadOS"
  pure [("macOS", mRec), ("iPadOS", iRec)]

/-- scrape_windows_versions(): find the first h2 heading whose text
matches /Windows 11/, strip it, and extract the version phrase. -/
def scrape_windows_versions (w : RawWorld) : Except PyErr Snapshot := do
  let headings ← w.windowsFetch
  let stable : String :=
    match headings.find? (fun h => listIsInfix ("Windows 11".data) h.data) with
    | none => "-"
    | some h =>
      match windowsVerSearch (pyStripStr h).data with
      | some m => ⟨m⟩
      | none => "-"
  pure [("Windows", [("stable", stable), ("beta", "-"), ("beta_release_date", "-")])]

/-- Python string truthiness fallback `a or b`. -/
def pyOrStr (a b : String) : String := if a ≠ "" then a else b

def emptyChromeEntry : ChromeEntry := ⟨none, none, none, none⟩

/-- scrape_chromeos_versions(): the whole body is wrapped in try/except,
so any fetch or JSON failure degrades to the all-sentinel record. -/
def scrape_chromeos_versions (w : RawWorld) : Snapshot :=
  match w.chromeFetch with
  | .error _ => [("ChromeOS", sentinelRec)]
  | .ok j =>
    let data := match j with
      | .obj e => [e]
      | .arr l => l
    let stable := (data.find?
      (fun x => lowerStr ((x.channel).getD "") == "stable")).getD emptyChromeEntry
    let beta := (data.find?
      (fun x => lowerStr ((x.channel).getD "") == "beta")).getD emptyChromeEntry
    let stableV := stable.milestone.getD "-"
    let betaV := beta.milestone.getD "-"
    let bd0 := pyOrStr (beta.betaPromotion.getD "") (beta.branchPoint.getD "-")
    let bd1 := if bd0 ≠ "" then
        match parseYMD bd0 with
        | some d => renderDMonY d
        | none => bd0
      else bd0
    [("ChromeOS",
      [("stable", if stableV ≠ "-" then "Chrome " ++ stableV else "-"),
        ("beta", if betaV ≠ "-" then "Chrome " ++ betaV else "-"),
        ("beta_release_date", pyOrStr bd1 "-")])]

/-- The data-assembly prefix of main(): data = {}, then update with each
scraper result in order; an uncaught exception from the Apple or Windows
scraper aborts the whole run. -/
def mainSnapshot (w : RawWorld) : Except PyErr Snapshot := do
  let apple ← scrape_apple_versions w
  let win ← scrape_windows_versions w
  pure (dictUpdate (dictUpdate (dictUpdate [] apple) win) (scrape_chromeos_versions w))

/-- A beta-matching item whose publication date dateparser cannot parse
makes the per-item step raise: the dateparser.parse call in the beta
branch is not guarded by any try/except. -/
theorem apple_item_step_date_fail {dp : String → Option YMD} {os : String}
    {st : AppleState} {it : RssItem}
    (h1 : pyIn os (pyStripStr it.title) = true)
    (h2 : pyIn "beta" (lowerStr (pyStripStr it.title)) = true)
    (hb : st.betaFound = false)
    (h3 : dp (pyStripStr it.pubDate) = none) :
    apple_item_step dp os st it = .error .dateParseError := by
  simp [apple_item_step, h1, h2, hb, h3]

/-- An uncaught exception in an item step aborts the whole item loop. -/
theorem apple_fold_error_first {dp : String → Option YMD} {os : String}
    {st : AppleState} {it : RssItem} {rest : List RssItem} {e : PyErr}
    (h : apple_item_step dp os st it = .error e) :
    apple_fold dp os st (it :: rest) = .error e := by
  unfold apple_fold
  simp only [Bind.bind, Except.bind, h]

/-- An exception escaping the item loop escapes the per-OS record
builder: the setdefault epilogue never runs. -/
theorem apple_os_record_error {dp : String → Option YMD} {items : List RssItem}
    {os : String} {e : PyErr}
    (h : apple_fold dp os ⟨false, false, []⟩ items = .error e) :
    apple_os_record dp items os = .error e := by
  unfold apple_os_record
  simp only [Bind.bind, Except.bind, h]

def c4WorldAppleErr : RawWorld :=
  ⟨.error .fetchError, fun _ => none, .ok [], .ok (.arr [])⟩

def c4WorldChromeErr : RawWorld :=
  ⟨.ok [], fun _ => none, .ok [], .error .fetchError⟩

def c4WorldDateErr : RawWorld :=
  ⟨.ok [⟨"macOS 26.1 beta 4 (25B5072a) now available", "bogus date"⟩],
    fun _ => none, .ok [], .ok (.arr [])⟩

/-- C4 (counterexample): a fetch failure in the Apple scraper aborts the
whole normalization with an uncaught exception even though the Windows
and ChromeOS fetches succeed, so no snapshot at all is produced for the
remaining platforms — refuting the claim that normalization never raises
and degrades only the failing platform. -/
theorem c4_apple_abort_counterexample :
    mainSnapshot c4WorldAppleErr = .error .fetchError ∧
    c4WorldAppleErr.windowsFetch = .ok [] ∧
    c4WorldAppleErr.chromeFetch = .ok (.arr []) :=
  ⟨rfl, rfl, rfl⟩

/-- C4 (amended): only the ChromeOS scraper catches its failures (its
whole body is in try/except, degrading ChromeOS to the all-sentinel
record without affecting other platforms); any uncaught Apple-scraper
exception — a fetch failure, or a date-parse failure on a beta post —
propagates and aborts the whole run, as does a fetch failure in the
Windows scraper, and when Apple and Windows succeed the run produces
the assembled snapshot whatever the ChromeOS fetch did. -/
theorem c4_error_propagation (w : RawWorld) (e : PyErr) :
    (w.appleFetch = .error e → mainSnapshot w = .error e) ∧
    (scrape_apple_versions w = .error e → mainSnapshot w = .error e) ∧
    (∀ it rest, w.appleFetch = .ok (it :: rest) →
      pyIn "macOS" (pyStripStr it.title) = true →
      pyIn "beta" (lowerStr (pyStripStr it.title)) = true →
      w.parseDate (pyStripStr it.pubDate) = none →
      mainSnapshot w = .error .dateParseError) ∧
    (∀ a, scrape_apple_versions w = .ok a → w.windowsFetch = .error e →
      mainSnapshot w = .error e) ∧
    (w.chromeFetch = .error e →
      scrape_chromeos_versions w = [("ChromeOS", sentinelRec)]) ∧
    (∀ a ww, scrape_apple_versions w = .ok a → scrape_windows_versions w = .ok ww →
      mainSnapshot w = .ok (dictUpdate (dictUpdate (dictUpdate [] a) ww)
        (scrape_chromeos_versions w))) := by
  refine ⟨?_, ?_, ?_, ?_, ?_, ?_⟩
  · intro h
    unfold mainSnapshot scrape_apple_versions
    rw [h]
    rfl
  · intro h
    unfold mainSnapshot
    rw [h]
    rfl
  · intro it rest hf h1 h2 h3
    have hstep : apple_item_step w.parseDate "macOS" ⟨false, false, []⟩ it =
        .error .dateParseError :=
      apple_item_step_date_fail h1 h2 rfl h3
    have happle : scrape_apple_versions w = .error .dateParseError := by
      unfold scrape_apple_versions
      rw [hf]
      simp only [Bind.bind, Except.bind]
      rw [apple_os_record_error (apple_fold_error_first hstep)]
    unfold mainSnapshot
    rw [happle]
    rfl
  · intro a ha hw
    unfold mainSnapshot
    rw [ha]
    unfold scrape_windows_versions
    rw [hw]
    rfl
  · intro h
    unfold scrape_chromeos_versions
    rw [h]
  · intro a ww ha hww
    unfold mainSnapshot
    rw [ha, hww]
    rfl

theorem c4_error_propagation_witness :
    mainSnapshot c4WorldAppleErr = .error .fetchError ∧
    mainSnapshot c4WorldDateErr = .error .dateParseError ∧
    scrape_chromeos_versions c4WorldChromeErr = [("ChromeOS", sentinelRec)] :=
  ⟨(c4_error_propagation c4WorldAppleErr .fetchError).1 rfl,
    (c4_error_propagation c4WorldDateErr .fetchError).2.2.1
      ⟨"macOS 26.1 beta 4 (25B5072a) now available", "bogus date"⟩ []
      rfl (by decide) (by decide) rfl,
    (c4_error_propagation c4WorldChromeErr .fetchError).2.2.2.2.1 rfl⟩

theorem string_ne_empty_of_data {s : String} (h : s.data ≠ []) : s ≠ "" := by
  intro he
  rw [he] at h
  exact h rfl

theorem listIsInfix_hay_ne_nil {needle hay : List Char}
    (h : listIsInfix needle hay = true) (hn : needle ≠ []) : hay ≠ [] := by
  intro he
  subst he
  unfold listIsInfix at h
  exact hn (List.isEmpty_iff.mp h)

theorem renderDMonY_ne_empty (x : YMD) : renderDMonY x ≠ "" := by
  apply string_ne_empty_of_data
  simp [renderDMonY]

theorem reSearch_some {f : List Char → Option (List Char)} :
    ∀ {s m : List Char}, reSearch f s = some m → ∃ s2, f s2 = some m := by
  intro s
  induction s with
  | nil =>
    intro m h
    exact ⟨[], h⟩
  | cons c cs ih =>
    intro m h
    unfold reSearch at h
    cases hf : f (c :: cs) with
    | some m2 =>
      rw [hf] at h
      refine ⟨c :: cs, ?_⟩
      rw [hf]
      exact h
    | none =>
      rw [hf] at h
      exact ih h

theorem obind_eq_some {α β : Type} {o : Option α} {f : α → Option β} {b : β} :
    obind o f = some b ↔ ∃ a, o = some a ∧ f a = some b := by
  cases o <;> simp [obind]

theorem guardB_eq_some {b : Bool} {u : Unit} : guardB b = some u ↔ b = true := by
  cases b <;> simp [guardB]

theorem headOpt_eq_some {l : List Char} {c : Char} {rest : List Char} :
    headOpt l = some (c, rest) ↔ l = c :: rest := by
  cases l <;> simp [headOpt]

theorem takeClass1_some {p : Char → Bool} {s r rest : List Char}
    (h : takeClass1 p s = some (r, rest)) :
    r ≠ [] ∧ ∀ c ∈ r, p c = true := by
  unfold takeClass1 at h
  split at h
  · cases h
  · rename_i hne
    have hr : r = s.takeWhile p := by
      have := Option.some.inj h
      exact (congrArg Prod.fst this).symm
    constructor
    · rw [hr]
      exact List.isEmpty_eq_false.mp (by
        cases hie : (s.takeWhile p).isEmpty with
        | false => rfl
        | true => exact absurd hie hne)
    · intro c hc
      rw [hr] at hc
      exact List.mem_takeWhile_imp hc

theorem appleStableAt_anatomy {os s m : List Char}
    (h : appleStableAt os s = some m) :
    ∃ w run, m = os ++ w :: run ∧ pyIsSpace w = true ∧ run ≠ [] ∧
      ∀ c ∈ run, isDigitDot c = true := by
  unfold appleStableAt at h
  simp only [obind_eq_some, guardB_eq_some, headOpt_eq_some, Option.some.injEq] at h
  obtain ⟨_, hpre, ⟨w, s2⟩, hdrop, _, hw, ⟨run, s3⟩, htc, hm⟩ := h
  obtain ⟨hrun_ne, hrun_all⟩ := takeClass1_some htc
  refine ⟨w, run, ?_, hw, hrun_ne, hrun_all⟩
  rw [← hm]
  have htake : s.take os.length = os := by
    have hp := List.isPrefixOf_iff_prefix.mp hpre
    exact (List.prefix_iff_eq_take.mp hp).symm
  rw [htake]

theorem appleBetaAt_ne_nil {os s m : List Char} (h : appleBetaAt os s = some m) :
    m ≠ [] := by
  unfold appleBetaAt at h
  simp only [obind_eq_some, guardB_eq_some, headOpt_eq_some, Option.some.injEq] at h
  obtain ⟨_, h1, ⟨w, s2⟩, h2, _, h3, ⟨run, s3⟩, h4, ⟨w2, s4⟩, h5, _, h6,
    ⟨c1, s5⟩, h7, ⟨c2, s6⟩, h8, hm⟩ := h
  rw [← hm]
  simp

theorem windowsVerAt_ne_nil {s m : List Char} (h : windowsVerAt s = some m) :
    m ≠ [] := by
  unfold windowsVerAt at h
  simp only [obind_eq_some, guardB_eq_some, headOpt_eq_some, Option.some.injEq] at h
  obtain ⟨_, h1, ⟨w, s2⟩, h2, _, h3, _, h4, ⟨sep, s3⟩, h5, _, h6, ⟨w2, s4⟩, h7,
    _, h8, ⟨run, s9⟩, h9, hm⟩ := h
  rw [← hm]
  simp

theorem pyReplace_cons_pos {pat nw : List Char} {c : Char} {cs : List Char}
    (h : pat ≠ [] ∧ pat.isPrefixOf (c :: cs)) :
    pyReplace pat nw (c :: cs) = nw ++ pyReplace pat nw ((c :: cs).drop pat.length) := by
  rw [pyReplace]
  rw [dif_pos h]

theorem pyReplace_cons_neg {pat nw : List Char} {c : Char} {cs : List Char}
    (h : ¬(pat ≠ [] ∧ pat.isPrefixOf (c :: cs))) :
    pyReplace pat nw (c :: cs) = c :: pyReplace pat nw cs := by
  rw [pyReplace]
  rw [dif_neg h]

theorem pyReplace_strip_leading_pat {oh : Char} {ot rest : List Char} :
    pyReplace (oh :: ot) [] ((oh :: ot) ++ rest) = pyReplace (oh :: ot) [] rest := by
  have hpre : (oh :: ot).isPrefixOf ((oh :: ot) ++ rest) = true :=
    List.isPrefixOf_iff_prefix.mpr (List.prefix_append _ _)
  rw [show (oh :: ot) ++ rest = oh :: (ot ++ rest) from rfl]
  rw [pyReplace_cons_pos ⟨by simp, by rw [show oh :: (ot ++ rest) = (oh :: ot) ++ rest from rfl]; exact hpre⟩]
  rw [List.nil_append]
  rw [show oh :: (ot ++ rest) = (oh :: ot) ++ rest from rfl, List.drop_left]

theorem pyReplace_no_occurrence {oh : Char} {ot nw : List Char} :
    ∀ {hay : List Char}, (∀ c ∈ hay, c ≠ oh) → pyReplace (oh :: ot) nw hay = hay := by
  intro hay
  induction hay with
  | nil =>
    intro _
    rw [pyReplace]
  | cons c cs ih =>
    intro hall
    have hc : c ≠ oh := hall c (by simp)
    have hnp : ((oh :: ot).isPrefixOf (c :: cs)) = false := by
      simp only [List.isPrefixOf, Bool.and_eq_false_iff, beq_eq_false_iff_ne, ne_eq]
      exact Or.inl (fun he => hc he.symm)
    rw [pyReplace_cons_neg (by
      intro hcon
      rw [hnp] at hcon
      exact Bool.noConfusion hcon.2)]
    rw [ih (fun x hx => hall x (by simp [hx]))]

theorem dropWhile_eq_self_of_all {p : Char → Bool} :
    ∀ {l : List Char}, (∀ c ∈ l, p c = false) → l.dropWhile p = l := by
  intro l
  cases l with
  | nil => intro _; rfl
  | cons c cs =>
    intro hall
    exact List.dropWhile_cons_of_neg (by
      rw [hall c (by simp)]
      exact Bool.noConfusion)

theorem digitDot_not_space {c : Char} (h : isDigitDot c = true) : pyIsSpace c = false := by
  unfold isDigitDot at h
  unfold pyIsSpace
  simp only [Bool.or_eq_true, Bool.and_eq_true, decide_eq_true_eq] at h
  simp only [Bool.or_eq_false_iff, decide_eq_false_iff_not]
  omega

theorem space_toNat_le {c : Char} (h : pyIsSpace c = true) : c.toNat ≤ 32 := by
  unfold pyIsSpace at h
  simp only [Bool.or_eq_true, decide_eq_true_eq] at h
  omega

theorem digitDot_toNat_le {c : Char} (h : isDigitDot c = true) : c.toNat ≤ 57 := by
  unfold isDigitDot at h
  simp only [Bool.or_eq_true, Bool.and_eq_true, decide_eq_true_eq] at h
  omega

theorem pyStrip_space_run {w : Char} {run : List Char} (hw : pyIsSpace w = true)
    (hne : run ≠ []) (hall : ∀ c ∈ run, isDigitDot c = true) :
    pyStrip (w :: run) = run := by
  unfold pyStrip
  obtain ⟨rc, rt, hrc⟩ : ∃ rc rt, run = rc :: rt := by
    cases run with
    | nil => exact absurd rfl hne
    | cons a b => exact ⟨a, b, rfl⟩
  have h1 : (w :: run).dropWhile pyIsSpace = run := by
    rw [List.dropWhile_cons_of_pos hw, hrc]
    exact List.dropWhile_cons_of_neg (by
      rw [digitDot_not_space (hall rc (by simp [hrc]))]
      exact Bool.noConfusion)
  rw [h1]
  rw [dropWhile_eq_self_of_all (fun c hc =>
    digitDot_not_space (hall c (List.mem_reverse.mp hc)))]
  rw [List.reverse_reverse]

theorem appleStable_value_ne_empty {os : String} {oh : Char} {ot : List Char}
    (hos : os.data = oh :: ot) (hoh : 57 < oh.toNat) {s m : List Char}
    (hm : appleStableAt os.data s = some m) :
    (⟨pyStrip (pyReplace os.data [] m)⟩ : String) ≠ "" := by
  obtain ⟨w, run, hmeq, hw, hrun, hrunall⟩ := appleStableAt_anatomy hm
  subst hmeq
  rw [hos]
  rw [pyReplace_strip_leading_pat]
  rw [pyReplace_no_occurrence (fun c hc => by
    rcases List.mem_cons.mp hc with hcw | hcr
    · subst hcw
      intro he
      have := space_toNat_le hw
      rw [he] at this
      omega
    · intro he
      have := digitDot_toNat_le (hrunall c hcr)
      rw [he] at this
      omega)]
  rw [pyStrip_space_run hw hrun hrunall]
  apply string_ne_empty_of_data
  simpa using hrun

theorem dictInsert_mem_cases {α : Type} {l : List (String × α)} {k : String} {v : α}
    {kv : String × α} (h : kv ∈ dictInsert k v l) : kv ∈ l ∨ kv = (k, v) := by
  induction l with
  | nil =>
    simp only [dictInsert, List.mem_singleton] at h
    exact Or.inr h
  | cons hd rest ih =>
    simp only [dictInsert] at h
    split at h
    · rcases List.mem_cons.mp h with h1 | h1
      · exact Or.inr h1
      · exact Or.inl (List.mem_cons_of_mem hd h1)
    · rcases List.mem_cons.mp h with h1 | h1
      · exact Or.inl (h1 ▸ List.mem_cons_self hd rest)
      · rcases ih h1 with h2 | h2
        · exact Or.inl (List.mem_cons_of_mem hd h2)
        · exact Or.inr h2

theorem pyIn_title_ne_empty {os title : String} (h : pyIn os title = true)
    (hos : os.data ≠ []) : title ≠ "" :=
  string_ne_empty_of_data (listIsInfix_hay_ne_nil h hos)

theorem apple_betaVal_ne_empty {os title : String} (hosne : os.data ≠ [])
    (hin : pyIn os title = true) :
    (match appleBetaSearch os.data title.data with
      | some m => (⟨m⟩ : String)
      | none => title) ≠ "" := by
  cases hsearch : appleBetaSearch os.data title.data with
  | some m =>
    obtain ⟨s2, hs2⟩ := reSearch_some hsearch
    exact string_ne_empty_of_data (appleBetaAt_ne_nil hs2)
  | none => exact pyIn_title_ne_empty hin hosne

theorem apple_stableVal_ne_empty {os title : String} {oh : Char} {ot : List Char}
    (hos : os.data = oh :: ot) (hoh : 57 < oh.toNat) (hin : pyIn os title = true) :
    (match appleStableSearch os.data title.data with
      | some m => (⟨pyStrip (pyReplace os.data [] m)⟩ : String)
      | none => title) ≠ "" := by
  cases hsearch : appleStableSearch os.data title.data with
  | some m =>
    obtain ⟨s2, hs2⟩ := reSearch_some hsearch
    exact appleStable_value_ne_empty hos hoh hs2
  | none => exact pyIn_title_ne_empty hin (by rw [hos]; simp)

theorem apple_item_step_values {dp : String → Option YMD} {os : String} {oh : Char}
    {ot : List Char} (hos : os.data = oh :: ot) (hoh : 57 < oh.toNat)
    {st st2 : AppleState} {it : RssItem}
    (h : apple_item_step dp os st it = .ok st2)
    (hst : ∀ kv ∈ st.vrec, kv.2 ≠ "") : ∀ kv ∈ st2.vrec, kv.2 ≠ "" := by
  have hosne : os.data ≠ [] := by rw [hos]; simp
  simp only [apple_item_step] at h
  split at h
  · rename_i hcond
    simp only [Bool.and_eq_true] at hcond
    obtain ⟨⟨hin, _⟩, _⟩ := hcond
    split at h
    · cases h
    · rename_i d hd
      have hst2 := Except.ok.inj h
      intro kv hkv
      rw [← hst2] at hkv
      simp only at hkv
      rcases dictInsert_mem_cases hkv with hkv1 | hkv1
      · rcases dictInsert_mem_cases hkv1 with hkv2 | hkv2
        · exact hst kv hkv2
        · rw [hkv2]
          exact apple_betaVal_ne_empty hosne hin
      · rw [hkv1]
        exact renderDMonY_ne_empty d
  · split at h
    · rename_i hcond
      simp only [Bool.and_eq_true] at hcond
      obtain ⟨⟨hin, _⟩, _⟩ := hcond
      have hst2 := Except.ok.inj h
      intro kv hkv
      rw [← hst2] at hkv
      simp only at hkv
      rcases dictInsert_mem_cases hkv with hkv1 | hkv1
      · exact hst kv hkv1
      · rw [hkv1]
        exact apple_stableVal_ne_empty hos hoh hin
    · have hst2 := Except.ok.inj h
      rw [← hst2]
      exact hst

theorem apple_fold_values {dp : String → Option YMD} {os : String} {oh : Char}
    {ot : List Char} (hos : os.data = oh :: ot) (hoh : 57 < oh.toNat) :
    ∀ (items : List RssItem) (st st2 : AppleState),
      apple_fold dp os st items = .ok st2 → (∀ kv ∈ st.vrec, kv.2 ≠ "") →
      ∀ kv ∈ st2.vrec, kv.2 ≠ "" := by
  intro items
  induction items with
  | nil =>
    intro st st2 h hst
    unfold apple_fold at h
    rw [← Except.ok.inj h]
    exact hst
  | cons it rest ih =>
    intro st st2 h hst
    unfold apple_fold at h
    cases hstep : apple_item_step dp os st it with
    | error e => rw [hstep] at h; simp [Bind.bind, Except.bind] at h
    | ok stm =>
      rw [hstep] at h
      exact ih stm st2 h (apple_item_step_values hos hoh hstep hst)

theorem dictSetdefault_mem {α : Type} {l : List (String × α)} {k : String} {v : α}
    {kv : String × α} (h : kv ∈ dictSetdefault l k v) : kv ∈ l ∨ kv = (k, v) := by
  unfold dictSetdefault at h
  split at h
  · exact Or.inl h
  · rcases List.mem_append.mp h with h1 | h1
    · exact Or.inl h1
    · exact Or.inr (List.mem_singleton.mp h1)

theorem dictSetdefault_get_self {α : Type} (l : List (String × α)) (k : String)
    (v : α) : (pyGet (dictSetdefault l k v) k).isSome = true := by
  unfold dictSetdefault
  split
  · rename_i hsome
    exact hsome
  · rename_i hnone
    unfold pyGet at hnone ⊢
    rw [List.find?_append]
    have hfn : l.find? (fun kv => kv.1 == k) = none := by
      cases hf : l.find? (fun kv => kv.1 == k) with
      | none => rfl
      | some x =>
        rw [hf] at hnone
        simp at hnone
    rw [hfn]
    simp [List.find?, Option.or]

theorem dictSetdefault_get_pres {α : Type} {l : List (String × α)} {f : String}
    (hsome : (pyGet l f).isSome = true) (k : String) (v : α) :
    (pyGet (dictSetdefault l k v) f).isSome = true := by
  unfold dictSetdefault
  split
  · exact hsome
  · unfold pyGet at hsome ⊢
    rw [List.find?_append]
    cases hf : l.find? (fun kv => kv.1 == f) with
    | none =>
      rw [hf] at hsome
      simp at hsome
    | some x =>
      simp [Option.or]

theorem pyGet_some_mem {α : Type} {l : List (String × α)} {k : String} {v : α}
    (h : pyGet l k = some v) : (k, v) ∈ l := by
  unfold pyGet at h
  obtain ⟨kv, hfind, hv⟩ := Option.map_eq_some'.mp h
  have hmem := List.mem_of_find?_eq_some hfind
  have hpred := List.find?_some hfind
  simp only [beq_iff_eq] at hpred
  cases kv with
  | mk a b =>
    simp only at hpred hv
    subst hpred
    subst hv
    exact hmem

theorem apple_os_record_fields {dp : String → Option YMD} {items : List RssItem}
    {os : String} {r : VRec} {oh : Char} {ot : List Char} (hos : os.data = oh :: ot)
    (hoh : 57 < oh.toNat) (h : apple_os_record dp items os = .ok r) :
    (∀ f ∈ threeFields, (pyGet r f).isSome = true) ∧ (∀ kv ∈ r, kv.2 ≠ "") := by
  unfold apple_os_record at h
  cases hfold : apple_fold dp os ⟨false, false, []⟩ items with
  | error e =>
    rw [hfold] at h
    simp [Bind.bind, Except.bind] at h
  | ok st =>
    rw [hfold] at h
    simp only [Bind.bind, Except.bind, pure, Except.pure] at h
    have hr := Except.ok.inj h
    constructor
    · intro f hf
      rw [← hr]
      simp only [threeFields, List.mem_cons, List.mem_singleton] at hf
      rcases hf with hf | hf | hf
      · subst hf
        exact dictSetdefault_get_pres (dictSetdefault_get_pres
          (dictSetdefault_get_self _ _ _) _ _) _ _
      · subst hf
        exact dictSetdefault_get_pres (dictSetdefault_get_self _ _ _) _ _
      · simp only [List.mem_nil_iff, or_false] at hf
        subst hf
        exact dictSetdefault_get_self _ _ _
    · intro kv hkv
      rw [← hr] at hkv
      rcases dictSetdefault_mem hkv with hkv1 | hkv1
      · rcases dictSetdefault_mem hkv1 with hkv2 | hkv2
        · rcases dictSetdefault_mem hkv2 with hkv3 | hkv3
          · exact apple_fold_values hos hoh items _ _ hfold
              (by intro kv2 hkv2b; cases hkv2b) kv hkv3
          · rw [hkv3]
            simp
        · rw [hkv2]
          simp
      · rw [hkv1]
        simp

theorem windows_stable_ne_empty (hds : List String) :
    (match hds.find? (fun h2 => listIsInfix ("Windows 11".data) h2.data) with
      | none => "-"
      | some h2 =>
        match windowsVerSearch (pyStripStr h2).data with
        | some m => (⟨m⟩ : String)
        | none => "-") ≠ "" := by
  cases hds.find? (fun h2 => listIsInfix ("Windows 11".data) h2.data) with
  | none => decide
  | some h2 =>
    dsimp only
    cases hsw : windowsVerSearch (pyStripStr h2).data with
    | none => decide
    | some m =>
      dsimp only
      obtain ⟨s2, hs2⟩ := reSearch_some hsw
      exact string_ne_empty_of_data (windowsVerAt_ne_nil hs2)

theorem scrape_windows_shape {w : RawWorld} {ww : Snapshot}
    (h : scrape_windows_versions w = .ok ww) :
    ∃ sv, ww = [("Windows", [("stable", sv), ("beta", "-"),
      ("beta_release_date", "-")])] ∧ sv ≠ "" := by
  unfold scrape_windows_versions at h
  cases hf : w.windowsFetch with
  | error e =>
    rw [hf] at h
    simp [Bind.bind, Except.bind] at h
  | ok headings =>
    rw [hf] at h
    simp only [Bind.bind, Except.bind, pure, Except.pure] at h
    exact ⟨_, (Except.ok.inj h).symm, windows_stable_ne_empty headings⟩

theorem chrome_ne_empty_stable (v : String) :
    (if v ≠ "-" then "Chrome " ++ v else "-") ≠ "" := by
  split
  · apply string_ne_empty_of_data
    rw [String.data_append]
    simp
  · simp

theorem pyOrStr_ne_empty (a : String) (b : String) (hb : b ≠ "") : pyOrStr a b ≠ "" := by
  unfold pyOrStr
  split
  · rename_i ha
    exact ha
  · exact hb

theorem scrape_chrome_shape (w : RawWorld) :
    ∃ s b r, scrape_chromeos_versions w =
      [("ChromeOS", [("stable", s), ("beta", b), ("beta_release_date", r)])] ∧
      s ≠ "" ∧ b ≠ "" ∧ r ≠ "" := by
  unfold scrape_chromeos_versions
  cases w.chromeFetch with
  | error e =>
    exact ⟨"-", "-", "-", rfl, by simp, by simp, by simp⟩
  | ok j =>
    dsimp only
    refine ⟨_, _, _, rfl, ?_, ?_, ?_⟩
    · exact chrome_ne_empty_stable _
    · exact chrome_ne_empty_stable _
    · exact pyOrStr_ne_empty _ _ (by simp)

/-- C8: every snapshot the normalization stage actually produces has
exactly the fixed platform list as its keys, in assembly order; every
record carries the three canonical fields, each of which is the sentinel
"-" or a non-empty string; and when the ChromeOS fetch failed, the
produced snapshot still contains ChromeOS with the all-sentinel record
rather than dropping the platform. -/
theorem c8_snapshot_shape (w : RawWorld) (S : Snapshot)
    (hok : mainSnapshot w = .ok S) :
    dictKeys S = fixedPlatforms ∧
    (∀ pv ∈ S, ∀ f ∈ threeFields, ∃ v, pyGet pv.2 f = some v ∧ (v = "-" ∨ v ≠ "")) ∧
    (w.chromeFetch.isOk = false → pyGet S "ChromeOS" = some sentinelRec) := by
  unfold mainSnapshot at hok
  cases ha : scrape_apple_versions w with
  | error e =>
    rw [ha] at hok
    simp [Bind.bind, Except.bind] at hok
  | ok a =>
    rw [ha] at hok
    cases hw : scrape_windows_versions w with
    | error e =>
      rw [hw] at hok
      simp [Bind.bind, Except.bind] at hok
    | ok ww =>
      rw [hw] at hok
      simp only [Bind.bind, Except.bind, pure, Except.pure] at hok
      have hS := (Except.ok.inj hok).symm
      unfold scrape_apple_versions at ha
      cases haf : w.appleFetch with
      | error e =>
        rw [haf] at ha
        simp [Bind.bind, Except.bind] at ha
      | ok items =>
        rw [haf] at ha
        simp only [Bind.bind, Except.bind] at ha
        cases hm : apple_os_record w.parseDate items "macOS" with
        | error e =>
          rw [hm] at ha
          simp [Bind.bind, Except.bind] at ha
        | ok mrec =>
          rw [hm] at ha
          cases hi : apple_os_record w.parseDate items "iPadOS" with
          | error e =>
            rw [hi] at ha
            simp [Bind.bind, Except.bind] at ha
          | ok irec =>
            rw [hi] at ha
            simp only [Bind.bind, Except.bind, pure, Except.pure] at ha
            have haeq := (Except.ok.inj ha).symm
            obtain ⟨sv, hwweq, hsv⟩ := scrape_windows_shape hw
            obtain ⟨cs, cb, cr, hch, hcs, hcb, hcr⟩ := scrape_chrome_shape w
            subst haeq
            subst hwweq
            rw [hch] at hS
            have hSeq : S = [("macOS", mrec), ("iPadOS", irec),
                ("Windows", [("stable", sv), ("beta", "-"), ("beta_release_date", "-")]),
                ("ChromeOS", [("stable", cs), ("beta", cb), ("beta_release_date", cr)])] := by
              rw [hS]
              rfl
            obtain ⟨hmF, hmV⟩ := apple_os_record_fields
              (show ("macOS" : String).data = 'm' :: ['a', 'c', 'O', 'S'] from rfl)
              (by decide) hm
            obtain ⟨hiF, hiV⟩ := apple_os_record_fields
              (show ("iPadOS" : String).data = 'i' :: ['P', 'a', 'd', 'O', 'S'] from rfl)
              (by decide) hi
            refine ⟨?_, ?_, ?_⟩
            · rw [hSeq]
              rfl
            · intro pv hpv f hf
              rw [hSeq] at hpv
              rcases List.mem_cons.mp hpv with h1 | hpv
              · subst h1
                obtain ⟨v, hv⟩ := Option.isSome_iff_exists.mp (hmF f hf)
                exact ⟨v, hv, Or.inr (hmV (f, v) (pyGet_some_mem hv))⟩
              · rcases List.mem_cons.mp hpv with h1 | hpv
                · subst h1
                  obtain ⟨v, hv⟩ := Option.isSome_iff_exists.mp (hiF f hf)
                  exact ⟨v, hv, Or.inr (hiV (f, v) (pyGet_some_mem hv))⟩
                · rcases List.mem_cons.mp hpv with h1 | hpv
                  · subst h1
                    simp only [threeFields, List.mem_cons, List.mem_singleton,
                      List.mem_nil_iff, or_false] at hf
                    rcases hf with hf | hf | hf <;> subst hf
                    · exact ⟨sv, rfl, Or.inr hsv⟩
                    · exact ⟨"-", rfl, Or.inl rfl⟩
                    · exact ⟨"-", rfl, Or.inl rfl⟩
                  · rcases List.mem_cons.mp hpv with h1 | hpv
                    · subst h1
                      simp only [threeFields, List.mem_cons, List.mem_singleton,
                        List.mem_nil_iff, or_false] at hf
                      rcases hf with hf | hf | hf <;> subst hf
                      · exact ⟨cs, rfl, Or.inr hcs⟩
                      · exact ⟨cb, rfl, Or.inr hcb⟩
                      · exact ⟨cr, rfl, Or.inr hcr⟩
                    · cases hpv
            · intro hcf
              cases hcf2 : w.chromeFetch with
              | ok j =>
                rw [hcf2] at hcf
                exact Bool.noConfusion hcf
              | error e =>
                have hsent : scrape_chromeos_versions w = [("ChromeOS", sentinelRec)] := by
                  unfold scrape_chromeos_versions
                  rw [hcf2]
                rw [hsent] at hch
                simp only [List.cons.injEq, Prod.mk.injEq, and_true, true_and] at hch
                rw [hSeq]
                show some [("stable", cs), ("beta", cb), ("beta_release_date", cr)] =
                  some sentinelRec
                rw [hch]

def c8World : RawWorld :=
  ⟨.ok [⟨"macOS 26.1 beta 4 (25B5072a) now available", "Mon, 3 Nov 2025"⟩,
    ⟨"macOS now available", "Mon, 3 Nov 2025"⟩],
   fun _ => some ⟨2025, 11, 3⟩, .ok ["Windows 11, version 24H2"], .error .fetchError⟩

def c8Snap : Snapshot :=
  [("macOS", [("beta", "macOS 26.1 beta 4 (25B5072a)"),
    ("beta_release_date", "03 Nov 2025"), ("stable", "macOS now available")]),
   ("iPadOS", [("stable", "-"), ("beta", "-"), ("beta_release_date", "-")]),
   ("Windows", [("stable", "Windows 11, version 24H2"), ("beta", "-"),
    ("beta_release_date", "-")]),
   ("ChromeOS", [("stable", "-"), ("beta", "-"), ("beta_release_date", "-")])]

theorem c8_snapshot_shape_witness :
    dictKeys c8Snap = fixedPlatforms ∧
    (∀ pv ∈ c8Snap, ∀ f ∈ threeFields, ∃ v, pyGet pv.2 f = some v ∧
      (v = "-" ∨ v ≠ "")) ∧
    (c8World.chromeFetch.isOk = false → pyGet c8Snap "ChromeOS" = some sentinelRec) :=
  c8_snapshot_shape c8World c8Snap (by decide)
